import Mathlib

/-!
Verification of the changelog rendering engine (src/lib/writer.js).

The JavaScript source is shallowly embedded: JS strings become `String`,
optional / possibly-`undefined` fields become `Option String`, JS objects
used as insertion-ordered dictionaries become association lists, and the
promise pipeline (which is purely sequential) becomes plain recursion.
Member accesses on possibly-`undefined` values, which throw a `TypeError`
in JS, are modelled with `Except String`.

The date string produced by `new Date().toJSON().slice(0, 10)` is passed
as an explicit parameter (the specification requires the date source to be
injectable).
-/

/-- A parsed commit record, as consumed by `exports.markdown`.
`hash` and `subject` are `Option String` because the code reads them with
string methods (`substring`, `replace`, `trim`) that throw on `undefined`;
the other fields are only used in falsy tests or as object keys, where
`undefined` behaves like a value, and are modelled as plain strings. -/
structure Commit where
  hash : Option String
  type : String
  category : String
  subject : Option String
  body : String
  flagIfBreaking : String
deriving DecidableEq

/-- The options bag passed to `exports.markdown`.  `patch` is documented in
the source but never read (the heading falls through to the `else` branch). -/
structure Options where
  patch : Bool := false
  minor : Bool := false
  major : Bool := false
  repoUrl : Option String := none
  allowUnknown : Bool := false
deriving DecidableEq

/-- The `DEFAULT_TYPE` constant of writer.js. -/
def DEFAULT_TYPE : String := "other"

/-- The `TYPES` catalog of writer.js, as an association list in source order. -/
def TYPES : List (String × String) :=
  [ ("breaking", "Breaking Changes :boom:")
  , ("build", "Build System / Dependencies :construction_worker: :arrow_up:")
  , ("ci", "Continuous Integration :rocket:")
  , ("docs", "Documentation Changes :memo:")
  , ("feat", "New Features :sparkles:")
  , ("fix", "Bug Fixes :bug:")
  , ("perf", "Performance Improvements :zap:")
  , ("refactor", "Refactors :recycle:")
  , ("style", "Code Style Changes :art: :lipstick:")
  , ("test", "Tests 🧪")
  , ("other", "Other Changes :question:") ]

/-- Property lookup `TYPES[t]` (all catalog values are non-empty strings,
so truthiness of the lookup coincides with `isSome`). -/
def typesLookup (t : String) : Option String :=
  (TYPES.find? (fun p => p.1 == t)).map Prod.snd

/-- Infix test on character lists, used to model `String.prototype.indexOf
(...) !== -1`. -/
def isInfixB : List Char → List Char → Bool
  | p, [] => p.isEmpty
  | p, c :: s => p.isPrefixOf (c :: s) || isInfixB p s

/-- JS `baseUrl.indexOf(sub) !== -1`. -/
def strContains (s sub : String) : Bool :=
  isInfixB sub.data s.data

/-- JS `baseUrl.slice(-4) === '.git'`. -/
def endsWithGit (s : String) : Bool :=
  ".git".data.isSuffixOf s.data

/-- JS `baseUrl.slice(0, -4)`. -/
def dropGit (s : String) : String :=
  ⟨s.data.take (s.data.length - 4)⟩

/-- `exports.getCommitUrl` of writer.js. -/
def getCommitUrl (baseUrl commitHash : String) : String :=
  let urlCommitName := if strContains baseUrl "bitbucket" then "commits" else "commit"
  let base :=
    if strContains baseUrl "gitlab" && endsWithGit baseUrl then dropGit baseUrl
    else baseUrl
  base ++ "/" ++ urlCommitName ++ "/" ++ commitHash

/-- Resolution of a commit's bucket key (writer.js line 77).  JS operator
precedence parses `TYPES[commit.type] || options.allowUnknown ? commit.type
: DEFAULT_TYPE` as `(TYPES[commit.type] || options.allowUnknown) ?
commit.type : DEFAULT_TYPE`. -/
def resolveType (allowUnknown : Bool) (t : String) : String :=
  if (typesLookup t).isSome || allowUnknown then t else DEFAULT_TYPE

/-- Section heading text for a bucket key (writer.js lines 90-94).  When the
key is not in the catalog and `allowUnknown` is false, JS concatenates the
`undefined` value into the heading, producing the string "undefined". -/
def typeDescription (allowUnknown : Bool) (t : String) : String :=
  match typesLookup t with
  | some d => d
  | none =>
    if allowUnknown then (typesLookup "other").getD "undefined" ++ " (" ++ t ++ ")"
    else "undefined"

theorem length_dropWhile_le' (p : α → Bool) (l : List α) :
    (l.dropWhile p).length ≤ l.length := by
  induction l with
  | nil => simp
  | cons a l ih =>
    simp only [List.dropWhile_cons]
    by_cases h : p a
    · simp only [h, if_true]
      exact Nat.le_succ_of_le ih
    · simp [h]

/-- One scan of `subject.replace(PR_REGEX, wrap)` where `PR_REGEX` is
`/#[1-9][\d]*​/g`: left-to-right, non-overlapping, greedy digit run. -/
def prScan (wrap : String → String) : List Char → List Char
  | [] => []
  | ch :: rest =>
    if ch = '#' then
      match rest with
      | [] => ['#']
      | c :: rest2 =>
        if '1' ≤ c ∧ c ≤ '9' then
          (wrap ⟨'#' :: c :: rest2.takeWhile Char.isDigit⟩).data ++
            prScan wrap (rest2.dropWhile Char.isDigit)
        else '#' :: prScan wrap (c :: rest2)
    else ch :: prScan wrap rest
termination_by l => l.length
decreasing_by
  · simp only [List.length_cons]
    have h := length_dropWhile_le' Char.isDigit rest2
    omega
  · simp [List.length_cons]
  · simp [List.length_cons]

/-- String-level wrapper for `prScan`. -/
def replacePR (wrap : String → String) (s : String) : String :=
  ⟨prScan wrap s.data⟩

/-- Skip `k` repetitions of the regex fragment `(\n)*(.)*`: each repetition
greedily consumes a run of newlines and then the rest of a line. -/
def consumeLines : Nat → List Char → List Char
  | 0, l => l
  | k + 1, l =>
    consumeLines k ((l.dropWhile (fun c => c == '\n')).dropWhile (fun c => c != '\n'))

theorem consumeLines_length_le : ∀ k l, (consumeLines k l).length ≤ l.length := by
  intro k
  induction k with
  | zero => intro l; simp [consumeLines]
  | succ k ih =>
    intro l
    calc (consumeLines (k + 1) l).length
        ≤ ((l.dropWhile (fun c => c == '\n')).dropWhile (fun c => c != '\n')).length := ih _
      _ ≤ (l.dropWhile (fun c => c == '\n')).length := length_dropWhile_le' _ _
      _ ≤ l.length := length_dropWhile_le' _ _

/-- Global replacement of `/(\n)+(MARKER)(.)*((\n)*(.)*){k}/g` by `'$1 '`:
a match starts at a newline run directly followed by the marker, consumes the
marker line and up to `k` further lines, and is replaced by a newline (the
last repetition of capture group 1) followed by a space. -/
theorem stripScan_dec (m : List Char) (k : Nat) (r : List Char) :
    (consumeLines k
      (((r.dropWhile (fun x => x == '\n')).drop m.length).dropWhile
        (fun x => x != '\n'))).length < r.length + 1 := by
  have h1 := consumeLines_length_le k
    (((r.dropWhile (fun x => x == '\n')).drop m.length).dropWhile (fun x => x != '\n'))
  have h2 := length_dropWhile_le' (fun x => x != '\n')
    ((r.dropWhile (fun x => x == '\n')).drop m.length)
  have h3 : ((r.dropWhile (fun x => x == '\n')).drop m.length).length ≤
      (r.dropWhile (fun x => x == '\n')).length := by
    simp [List.length_drop]
  have h4 := length_dropWhile_le' (fun x => x == '\n') r
  omega

def stripScan (m : List Char) (k : Nat) : List Char → List Char
  | [] => []
  | c :: rest =>
    if c = '\n' then
      let afterNl := rest.dropWhile (fun x => x == '\n')
      if m.isPrefixOf afterNl then
        '\n' :: ' ' ::
          stripScan m k
            (consumeLines k ((afterNl.drop m.length).dropWhile (fun x => x != '\n')))
      else '\n' :: stripScan m k rest
    else c :: stripScan m k rest
termination_by l => l.length
decreasing_by
  · simp only [List.length_cons]
    exact stripScan_dec m k _
  · simp [List.length_cons]
  · simp [List.length_cons]

/-- String-level wrapper for one trailer-strip substitution. -/
def stripReplace (m : String) (k : Nat) (s : String) : String :=
  ⟨stripScan m.data k s.data⟩

/-- The three trailer-strip substitutions of writer.js lines 134-136, in
source order, each guarded by a truthiness test on the body. -/
def stripBody (body : String) : String :=
  let b1 := if body ≠ "" then stripReplace "END BREAKING CHANGE" 4 body else ""
  let b2 := if b1 ≠ "" then stripReplace "See" 3 b1 else ""
  if b2 ≠ "" then stripReplace "Closes" 2 b2 else ""

/-- `body.replaceAll('\n', '\n      ')` (writer.js line 138). -/
def indentBody (s : String) : String :=
  ⟨s.data.flatMap (fun c => if c = '\n' then '\n' :: "      ".data else [c])⟩

/-- JS `commit.hash.substring(0, 8)`. -/
def shortHash (h : String) : String :=
  ⟨h.data.take 8⟩

/-- JS `pr.slice(1)`: the PR number without its leading hash sign. -/
def prNum (pr : String) : String :=
  ⟨pr.data.drop 1⟩

/-- JS `subject.trim()` (ASCII whitespace). -/
def jsTrim (s : String) : String :=
  ⟨((s.data.dropWhile Char.isWhitespace).reverse.dropWhile Char.isWhitespace).reverse⟩

/-- Link generation for the shorthash and the PR references in the subject
(writer.js lines 112-131).  Returns the (possibly linked) shorthash and the
(possibly rewritten) subject. -/
def applyLinks (repoUrl : Option String) (tKey : String) (hash subj : String) :
    String × String :=
  match repoUrl with
  | none => (shortHash hash, subj)
  | some u =>
    if tKey = "breaking" then
      ("<a href=\"" ++ getCommitUrl u hash ++ "\">" ++ shortHash hash ++ "</a>",
       replacePR
         (fun pr => "<a href=\"" ++ u ++ "/pull/" ++ prNum pr ++ "\">" ++ pr ++ "</a>")
         subj)
    else
      ("[" ++ shortHash hash ++ "](" ++ getCommitUrl u hash ++ ")",
       replacePR
         (fun pr => "[" ++ pr ++ "](" ++ u ++ "/pull/" ++ prNum pr ++ ")")
         subj)

/-- The pure body of the per-commit formatting (writer.js lines 112-150),
given the already-extracted `hash` and `subject` strings.  Returns the single
line pushed onto `content` for this commit. -/
def formatCommitP (repoUrl : Option String) (tKey pfx : String)
    (hash subj : String) (c : Commit) : String :=
  let sh := (applyLinks repoUrl tKey hash subj).1
  let sub := (applyLinks repoUrl tKey hash subj).2
  let breaking := if c.flagIfBreaking ≠ "" then "(" ++ c.flagIfBreaking ++ "): " else ""
  let body0 := stripBody c.body
  let body1 := "      " ++ body0
  let body2 := if body1 ≠ "" then indentBody body1 else ""
  let det := "\n   * <details>\n      <summary>" ++ breaking ++ jsTrim sub ++ " (" ++ sh ++
    ")</summary>\n\n" ++ body2 ++ "</details>"
  if tKey = "breaking" ∧ det ≠ "" then
    if pfx = "*" then " " ++ jsTrim det else pfx ++ " " ++ det
  else
    pfx ++ " " ++ breaking ++ jsTrim sub ++ " (" ++ sh ++ ")"

/-- Per-commit formatting.  `commit.hash.substring(0, 8)` (line 112) throws a
`TypeError` when `hash` is `undefined`; with `hash` defined, an `undefined`
`subject` throws at `subject.replace` (line 120/127) or `subject.trim()`
(line 139/149), always before the line is pushed. -/
def formatCommit (repoUrl : Option String) (tKey pfx : String) (c : Commit) :
    Except String String :=
  match c.hash with
  | none => .error "TypeError: commit.hash is undefined"
  | some h =>
    match c.subject with
    | none => .error "TypeError: commit.subject is undefined"
    | some s => .ok (formatCommitP repoUrl tKey pfx h s c)

/-- The nested grouping dictionary `this.types`: an insertion-ordered map
from type key to an insertion-ordered map from category to commit list. -/
abbrev Groups := List (String × List (String × List Commit))

/-- Append a commit to a category bucket, creating the key at the end on
first use (JS property-creation order). -/
def insertCat (cats : List (String × List Commit)) (cat : String) (c : Commit) :
    List (String × List Commit) :=
  match cats with
  | [] => [(cat, [c])]
  | (k, cs) :: rest =>
    if k = cat then (k, cs ++ [c]) :: rest else (k, cs) :: insertCat rest cat c

/-- Append a commit to a (type, category) bucket, creating keys at the end on
first use. -/
def insertType (g : Groups) (t cat : String) (c : Commit) : Groups :=
  match g with
  | [] => [(t, [(cat, [c])])]
  | (k, cats) :: rest =>
    if k = t then (k, insertCat cats cat c) :: rest
    else (k, cats) :: insertType rest t cat c

/-- The grouping pass of writer.js lines 74-84. -/
def groupCommits (allowUnknown : Bool) (commits : List Commit) : Groups :=
  commits.foldl (fun g c => insertType g (resolveType allowUnknown c.type) c.category c) []

/-- The category sub-dictionary of a type key (`this.types[type]`), empty
when the key is absent. -/
def catsOf (g : Groups) (t : String) : List (String × List Commit) :=
  ((g.find? (fun p => p.1 == t)).map Prod.snd).getD []

/-- The commit list of a category key (`this.types[type][category]`), empty
when the key is absent. -/
def catGet (cats : List (String × List Commit)) (cat : String) : List Commit :=
  ((cats.find? (fun p => p.1 == cat)).map Prod.snd).getD []

/-- The commit list of one (type, category) bucket. -/
def bucketGet (g : Groups) (t cat : String) : List Commit :=
  catGet (catsOf g t) cat

/-- Lexicographic comparison of character lists (the JS default sort
comparator compares strings by code units; for these keys that coincides
with code points). -/
def charListLe : List Char → List Char → Bool
  | [], _ => true
  | _ :: _, [] => false
  | x :: xs, y :: ys => if x < y then true else if y < x then false else charListLe xs ys

/-- String comparator used by `Object.keys(this.types).sort()`. -/
def jsLeB (a b : String) : Bool :=
  charListLe a.data b.data

/-- `Object.keys(this.types).sort()`: sorting with the default lexicographic
comparator (any sorted arrangement of the keys is unique, so insertion sort
models `Array.prototype.sort`). -/
def sortKeys (ks : List String) : List String :=
  ks.insertionSort (fun a b => jsLeB a b = true)

/-- Sequential traversal collecting `Except` results (the Bluebird `.each`
chain is sequential; the first throw rejects the whole promise). -/
def mapE (f : α → Except String β) : List α → Except String (List β)
  | [] => .ok []
  | a :: as =>
    match f a with
    | .error e => .error e
    | .ok b =>
      match mapE f as with
      | .error e => .error e
      | .ok bs => .ok (b :: bs)

/-- Rendering of one category sub-bucket (writer.js lines 99-152): the
category heading when the bucket is nested and named, then one line per
commit. -/
def renderCategory (repoUrl : Option String) (tKey cat : String)
    (cs : List Commit) : Except String (List String) :=
  let nested := cs.length > 1
  let categoryHeading := "*" ++ (if cat ≠ "" then " **" ++ cat ++ ":**" else "")
  let pfx := if nested ∧ cat ≠ "" then "  *" else categoryHeading
  let lead := if nested ∧ cat ≠ "" then [categoryHeading] else []
  match mapE (formatCommit repoUrl tKey pfx) cs with
  | .error e => .error e
  | .ok ls => .ok (lead ++ ls)

/-- Rendering of one type section (writer.js lines 88-155): heading line,
blank line, category renderings, trailing blank line. -/
def renderType (opts : Options) (g : Groups) (t : String) :
    Except String (List String) :=
  match mapE (fun p => renderCategory opts.repoUrl t p.1 p.2) (catsOf g t) with
  | .error e => .error e
  | .ok ls => .ok (["##### " ++ typeDescription opts.allowUnknown t, ""] ++ ls.flatten ++ [""])

/-- JS `content.join('\n')`. -/
def joinNl : List String → String
  | [] => ""
  | [x] => x
  | x :: y :: rest => x ++ "\n" ++ joinNl (y :: rest)

/-- The version/date heading (writer.js lines 57-69). -/
def headingOf (version date : String) (opts : Options) : String :=
  let heading0 := if opts.major then "##" else if opts.minor then "###" else "####"
  if version ≠ "" then heading0 ++ " " ++ version ++ " (" ++ date ++ ")"
  else heading0 ++ " " ++ date

/-- `exports.markdown` of writer.js, with the generation date injected. -/
def markdown (version date : String) (commits : List Commit) (opts : Options) :
    Except String String :=
  let g := groupCommits opts.allowUnknown commits
  match mapE (renderType opts g) (sortKeys (g.map Prod.fst)) with
  | .error e => .error e
  | .ok secs => .ok (joinNl ([headingOf version date opts, ""] ++ secs.flatten ++ [""]))

/-! Pure companions of the `Except`-valued rendering functions: they compute
the same strings for inputs whose `hash` and `subject` are present, which is
proved in the bridging lemmas below. -/

/-- Pure per-commit line for a commit with both fields present. -/
def formatCommitPure (repoUrl : Option String) (tKey pfx : String) (c : Commit) : String :=
  formatCommitP repoUrl tKey pfx (c.hash.getD "") (c.subject.getD "") c

/-- Pure rendering of one category sub-bucket. -/
def renderCategoryL (repoUrl : Option String) (tKey cat : String)
    (cs : List Commit) : List String :=
  let nested := cs.length > 1
  let categoryHeading := "*" ++ (if cat ≠ "" then " **" ++ cat ++ ":**" else "")
  let pfx := if nested ∧ cat ≠ "" then "  *" else categoryHeading
  let lead := if nested ∧ cat ≠ "" then [categoryHeading] else []
  lead ++ cs.map (formatCommitPure repoUrl tKey pfx)

/-- Pure rendering of one type section. -/
def renderTypeL (opts : Options) (g : Groups) (t : String) : List String :=
  ["##### " ++ typeDescription opts.allowUnknown t, ""] ++
    ((catsOf g t).map (fun p => renderCategoryL opts.repoUrl t p.1 p.2)).flatten ++ [""]

/-- Pure list of all lines pushed onto `content`. -/
def contentL (version date : String) (commits : List Commit) (opts : Options) :
    List String :=
  let g := groupCommits opts.allowUnknown commits
  [headingOf version date opts, ""] ++
    ((sortKeys (g.map Prod.fst)).map (renderTypeL opts g)).flatten ++ [""]

/-- Pure rendered document. -/
def markdownL (version date : String) (commits : List Commit) (opts : Options) : String :=
  joinNl (contentL version date commits opts)



/-! Lemmas about the grouping pass. -/

theorem catGet_nil (cat : String) : catGet [] cat = [] := rfl

theorem catGet_cons (k : String) (cs : List Commit)
    (rest : List (String × List Commit)) (cat : String) :
    catGet ((k, cs) :: rest) cat = if k = cat then cs else catGet rest cat := by
  by_cases h : k = cat
  · rw [if_pos h, catGet, List.find?_cons_of_pos]
    · rfl
    · simpa using h
  · rw [if_neg h, catGet, List.find?_cons_of_neg]
    · rfl
    · simpa using h

theorem catsOf_nil (t : String) : catsOf [] t = [] := rfl

theorem catsOf_cons (k : String) (cats : List (String × List Commit))
    (rest : Groups) (t : String) :
    catsOf ((k, cats) :: rest) t = if k = t then cats else catsOf rest t := by
  by_cases h : k = t
  · rw [if_pos h, catsOf, List.find?_cons_of_pos]
    · rfl
    · simpa using h
  · rw [if_neg h, catsOf, List.find?_cons_of_neg]
    · rfl
    · simpa using h

theorem catGet_insertCat (cats : List (String × List Commit)) (cat' : String)
    (c : Commit) (cat : String) :
    catGet (insertCat cats cat' c) cat =
      catGet cats cat ++ (if cat' = cat then [c] else []) := by
  induction cats with
  | nil =>
    by_cases h : cat' = cat <;> simp [insertCat, catGet_cons, catGet_nil, h]
  | cons p rest ih =>
    obtain ⟨k, cs⟩ := p
    simp only [insertCat]
    by_cases hk : k = cat'
    · subst hk
      rw [if_pos rfl]
      by_cases h : k = cat
      · subst h
        simp [catGet_cons]
      · simp [catGet_cons, h]
    · rw [if_neg hk]
      by_cases h : k = cat
      · subst h
        have hcc : ¬ cat' = k := fun e => hk e.symm
        simp [catGet_cons, hcc]
      · simp [catGet_cons, h, ih]

theorem catsOf_insertType (g : Groups) (t' cat : String) (c : Commit) (t : String) :
    catsOf (insertType g t' cat c) t =
      if t' = t then insertCat (catsOf g t) cat c else catsOf g t := by
  induction g with
  | nil =>
    by_cases h : t' = t <;> simp [insertType, insertCat, catsOf_cons, catsOf_nil, h]
  | cons p rest ih =>
    obtain ⟨k, cats⟩ := p
    simp only [insertType]
    by_cases hk : k = t'
    · subst hk
      rw [if_pos rfl]
      by_cases h : k = t
      · subst h
        simp [catsOf_cons]
      · simp [catsOf_cons, h]
    · rw [if_neg hk]
      by_cases h : k = t
      · subst h
        have htt : ¬ t' = k := fun e => hk e.symm
        simp [catsOf_cons, htt]
      · simp [catsOf_cons, h, ih]

theorem bucketGet_insertType (g : Groups) (t' cat' : String) (c : Commit)
    (t cat : String) :
    bucketGet (insertType g t' cat' c) t cat =
      bucketGet g t cat ++ (if t' = t ∧ cat' = cat then [c] else []) := by
  rw [bucketGet, bucketGet, catsOf_insertType]
  by_cases ht : t' = t
  · rw [if_pos ht, catGet_insertCat]
    by_cases hc : cat' = cat
    · simp [ht, hc]
    · simp [ht, hc]
  · rw [if_neg ht]
    simp [ht]

/-- One step of the grouping fold. -/
def groupStep (allowUnknown : Bool) (g : Groups) (c : Commit) : Groups :=
  insertType g (resolveType allowUnknown c.type) c.category c

theorem groupCommits_eq_foldl (allowUnknown : Bool) (commits : List Commit) :
    groupCommits allowUnknown commits = commits.foldl (groupStep allowUnknown) [] := rfl

theorem bucketGet_foldl (au : Bool) (cs : List Commit) :
    ∀ g t cat, bucketGet (cs.foldl (groupStep au) g) t cat =
      bucketGet g t cat ++
        cs.filter (fun c => resolveType au c.type == t && c.category == cat) := by
  induction cs with
  | nil => intro g t cat; simp
  | cons c cs ih =>
    intro g t cat
    rw [List.foldl_cons, ih]
    by_cases h : resolveType au c.type = t ∧ c.category = cat
    · simp [groupStep, bucketGet_insertType, h, List.filter_cons, h.1, h.2]
    · have hb : (resolveType au c.type == t && c.category == cat) = false := by
        rcases not_and_or.mp h with h1 | h1
        · simp [beq_eq_false_iff_ne.mpr h1]
        · simp [beq_eq_false_iff_ne.mpr h1]
      simp [groupStep, bucketGet_insertType, h, List.filter_cons, hb]

/-- Bucket characterization: each (type, category) bucket holds exactly the
input commits whose keys resolve to it, in input order. -/
theorem bucketGet_groupCommits (au : Bool) (commits : List Commit) (t cat : String) :
    bucketGet (groupCommits au commits) t cat =
      commits.filter (fun c => resolveType au c.type == t && c.category == cat) := by
  rw [groupCommits_eq_foldl, bucketGet_foldl]
  rfl

/-- All commits stored in a category dictionary. -/
def flattenCats (cats : List (String × List Commit)) : List Commit :=
  cats.flatMap Prod.snd

/-- All commits stored in the grouping dictionary. -/
def flattenGroups (g : Groups) : List Commit :=
  g.flatMap (fun p => flattenCats p.2)

theorem flattenCats_insertCat (cats : List (String × List Commit)) (cat : String)
    (c : Commit) : (flattenCats (insertCat cats cat c)).Perm (c :: flattenCats cats) := by
  induction cats with
  | nil => simp [insertCat, flattenCats]
  | cons p rest ih =>
    obtain ⟨k, cs⟩ := p
    simp only [insertCat]
    by_cases h : k = cat
    · rw [if_pos h]
      simp [flattenCats]
    · rw [if_neg h]
      have step : flattenCats ((k, cs) :: insertCat rest cat c) =
          cs ++ flattenCats (insertCat rest cat c) := by
        simp [flattenCats]
      have e2 : flattenCats ((k, cs) :: rest) = cs ++ flattenCats rest := by
        simp [flattenCats]
      rw [step, e2]
      exact (List.Perm.append_left cs ih).trans List.perm_middle

theorem flattenGroups_insertType (g : Groups) (t cat : String) (c : Commit) :
    (flattenGroups (insertType g t cat c)).Perm (c :: flattenGroups g) := by
  induction g with
  | nil => simp [insertType, flattenGroups, flattenCats]
  | cons p rest ih =>
    obtain ⟨k, cats⟩ := p
    simp only [insertType]
    by_cases h : k = t
    · rw [if_pos h]
      have step : flattenGroups ((k, insertCat cats cat c) :: rest) =
          flattenCats (insertCat cats cat c) ++ flattenGroups rest := by
        simp [flattenGroups]
      have e2 : flattenGroups ((k, cats) :: rest) = flattenCats cats ++ flattenGroups rest := by
        simp [flattenGroups]
      rw [step, e2]
      exact (List.Perm.append_right _ (flattenCats_insertCat cats cat c))
    · rw [if_neg h]
      have step : flattenGroups ((k, cats) :: insertType rest t cat c) =
          flattenCats cats ++ flattenGroups (insertType rest t cat c) := by
        simp [flattenGroups]
      have e2 : flattenGroups ((k, cats) :: rest) = flattenCats cats ++ flattenGroups rest := by
        simp [flattenGroups]
      rw [step, e2]
      exact (List.Perm.append_left _ ih).trans List.perm_middle

theorem flattenGroups_foldl (au : Bool) (cs : List Commit) :
    ∀ g, (flattenGroups (cs.foldl (groupStep au) g)).Perm (flattenGroups g ++ cs) := by
  induction cs with
  | nil => intro g; simp
  | cons c cs ih =>
    intro g
    rw [List.foldl_cons]
    have h1 := ih (groupStep au g c)
    have h3 := flattenGroups_insertType g (resolveType au c.type) c.category c
    have h2 : (flattenGroups (groupStep au g c) ++ cs).Perm (flattenGroups g ++ (c :: cs)) :=
      (List.Perm.append_right cs h3).trans List.perm_middle.symm
    exact h1.trans h2

/-- Partition property: flattening all buckets permutes the input list. -/
theorem flattenGroups_groupCommits (au : Bool) (commits : List Commit) :
    (flattenGroups (groupCommits au commits)).Perm commits := by
  have h := flattenGroups_foldl au commits []
  simpa [flattenGroups] using h

/-! Bridging lemmas: for inputs whose `hash` and `subject` are present the
`Except`-valued renderer returns exactly the pure rendering. -/

theorem formatCommit_eq_ok (ru : Option String) (tKey pfx : String) (c : Commit)
    (hh : c.hash.isSome = true) (hs : c.subject.isSome = true) :
    formatCommit ru tKey pfx c = .ok (formatCommitPure ru tKey pfx c) := by
  obtain ⟨h, hh⟩ := Option.isSome_iff_exists.mp hh
  obtain ⟨s, hs⟩ := Option.isSome_iff_exists.mp hs
  simp [formatCommit, hh, hs, formatCommitPure]

theorem mapE_map (f : α → Except String β) (g : α → β) (l : List α)
    (h : ∀ a ∈ l, f a = .ok (g a)) : mapE f l = .ok (l.map g) := by
  induction l with
  | nil => rfl
  | cons a as ih =>
    have ha := h a (List.mem_cons_self a as)
    have hrest := ih (fun x hx => h x (List.mem_cons_of_mem a hx))
    simp [mapE, ha, hrest]

theorem renderCategory_eq_ok (ru : Option String) (tKey cat : String)
    (cs : List Commit)
    (h : ∀ c ∈ cs, c.hash.isSome = true ∧ c.subject.isSome = true) :
    renderCategory ru tKey cat cs = .ok (renderCategoryL ru tKey cat cs) := by
  simp only [renderCategory, renderCategoryL]
  rw [mapE_map _ (formatCommitPure ru tKey _) cs
    (fun c hc => formatCommit_eq_ok ru tKey _ c (h c hc).1 (h c hc).2)]

theorem renderType_eq_ok (opts : Options) (g : Groups) (t : String)
    (h : ∀ p ∈ catsOf g t, ∀ c ∈ p.2, c.hash.isSome = true ∧ c.subject.isSome = true) :
    renderType opts g t = .ok (renderTypeL opts g t) := by
  simp only [renderType, renderTypeL]
  rw [mapE_map _ (fun p => renderCategoryL opts.repoUrl t p.1 p.2) _
    (fun p hp => renderCategory_eq_ok opts.repoUrl t p.1 p.2 (h p hp))]

theorem mem_flattenGroups_of_mem_catsOf {g : Groups} {t : String}
    {p : String × List Commit} (hp : p ∈ catsOf g t) {c : Commit} (hc : c ∈ p.2) :
    c ∈ flattenGroups g := by
  unfold catsOf at hp
  cases hfind : g.find? (fun q => q.1 == t) with
  | none => rw [hfind] at hp; simp at hp
  | some q =>
    rw [hfind] at hp
    simp only [Option.map_some', Option.getD_some] at hp
    have hq : q ∈ g := List.mem_of_find?_eq_some hfind
    unfold flattenGroups flattenCats
    exact List.mem_flatMap.mpr ⟨q, hq, List.mem_flatMap.mpr ⟨p, hp, hc⟩⟩

theorem markdown_eq_ok (version date : String) (commits : List Commit)
    (opts : Options)
    (h : ∀ c ∈ commits, c.hash.isSome = true ∧ c.subject.isSome = true) :
    markdown version date commits opts = .ok (markdownL version date commits opts) := by
  simp only [markdown, markdownL, contentL]
  rw [mapE_map _ (renderTypeL opts (groupCommits opts.allowUnknown commits)) _ ?_]
  intro t _
  refine renderType_eq_ok opts _ t ?_
  intro p hp c hc
  have hmem : c ∈ flattenGroups (groupCommits opts.allowUnknown commits) :=
    mem_flattenGroups_of_mem_catsOf hp hc
  exact h c ((flattenGroups_groupCommits opts.allowUnknown commits).mem_iff.mp hmem)

/-! Uniqueness and order of the dictionary keys. -/

theorem map_fst_insertType (g : Groups) (t cat : String) (c : Commit) :
    (insertType g t cat c).map Prod.fst =
      if t ∈ g.map Prod.fst then g.map Prod.fst else g.map Prod.fst ++ [t] := by
  induction g with
  | nil => simp [insertType]
  | cons p rest ih =>
    obtain ⟨k, cats⟩ := p
    simp only [insertType]
    by_cases h : k = t
    · simp [h]
    · have hne : ¬ t = k := fun e => h e.symm
      simp only [if_neg h, List.map_cons, List.mem_cons, hne, false_or]
      rw [ih]
      by_cases hmem : t ∈ rest.map Prod.fst
      · simp [hmem]
      · simp [hmem]

theorem nodup_keys_groupCommits (au : Bool) (commits : List Commit) :
    ((groupCommits au commits).map Prod.fst).Nodup := by
  rw [groupCommits_eq_foldl]
  suffices h : ∀ (cs : List Commit) (g : Groups), (g.map Prod.fst).Nodup →
      ((cs.foldl (groupStep au) g).map Prod.fst).Nodup by
    exact h commits [] (by simp)
  intro cs
  induction cs with
  | nil => intro g hg; simpa using hg
  | cons c cs ih =>
    intro g hg
    rw [List.foldl_cons]
    refine ih _ ?_
    rw [groupStep, map_fst_insertType]
    by_cases hmem : resolveType au c.type ∈ g.map Prod.fst
    · simpa [hmem] using hg
    · simp only [if_neg hmem]
      exact List.Nodup.append hg (List.nodup_singleton _)
        (by simpa [List.disjoint_singleton] using hmem)

theorem catsOf_eq_of_mem_nodup {g : Groups} (hg : (g.map Prod.fst).Nodup)
    {t : String} {cats : List (String × List Commit)} (hmem : (t, cats) ∈ g) :
    catsOf g t = cats := by
  induction g with
  | nil => simp at hmem
  | cons p rest ih =>
    obtain ⟨k, kcats⟩ := p
    rcases List.mem_cons.mp hmem with h | h
    · injection h with h1 h2
      rw [catsOf_cons, if_pos h1.symm, h2]
    · have hk : k ≠ t := by
        intro e
        subst e
        have : k ∈ rest.map Prod.fst := List.mem_map.mpr ⟨(k, cats), h, rfl⟩
        exact (List.nodup_cons.mp (by simpa using hg)).1 this
      rw [catsOf_cons, if_neg hk]
      exact ih (List.nodup_cons.mp (by simpa using hg)).2 h

/-- The commits in the order the rendering loop visits them: type keys in
sorted order, categories and commits in bucket order. -/
def renderedCommits (au : Bool) (commits : List Commit) : List Commit :=
  (sortKeys ((groupCommits au commits).map Prod.fst)).flatMap
    (fun t => flattenCats (catsOf (groupCommits au commits) t))

theorem renderedCommits_perm (au : Bool) (commits : List Commit) :
    (renderedCommits au commits).Perm commits := by
  unfold renderedCommits
  have hperm : (sortKeys ((groupCommits au commits).map Prod.fst)).Perm
      ((groupCommits au commits).map Prod.fst) := List.perm_insertionSort _ _
  have h1 := hperm.flatMap_right
    (fun t => flattenCats (catsOf (groupCommits au commits) t))
  refine h1.trans ?_
  have h2 : (((groupCommits au commits).map Prod.fst).flatMap
      (fun t => flattenCats (catsOf (groupCommits au commits) t))) =
      flattenGroups (groupCommits au commits) := by
    rw [flattenGroups, List.flatMap_map]
    refine List.flatMap_congr ?_
    intro p hp
    obtain ⟨k, cats⟩ := p
    rw [catsOf_eq_of_mem_nodup (nodup_keys_groupCommits au commits) hp]
  rw [h2]
  exact flattenGroups_groupCommits au commits

/-! First-seen order of category keys. -/

/-- Append a key if it is new (JS property creation inside a fixed object). -/
def insert1 (ks : List String) (k : String) : List String :=
  if k ∈ ks then ks else ks ++ [k]

/-- The distinct values of a list in order of first occurrence. -/
def firstSeen : List String → List String
  | [] => []
  | x :: xs => x :: firstSeen (xs.filter (fun y => y != x))
termination_by l => l.length
decreasing_by
  simp only [List.length_cons]
  have h := List.length_filter_le (fun y => y != x) xs
  omega

theorem foldl_insert1_eq_firstSeen :
    ∀ (l : List String) (acc : List String),
      l.foldl insert1 acc = acc ++ firstSeen (l.filter (fun y => !(decide (y ∈ acc)))) := by
  intro l
  induction l with
  | nil => intro acc; simp [firstSeen]
  | cons x xs ih =>
    intro acc
    rw [List.foldl_cons, ih]
    by_cases hx : x ∈ acc
    · have h1 : insert1 acc x = acc := by simp [insert1, hx]
      rw [h1, List.filter_cons]
      simp [hx]
    · have h1 : insert1 acc x = acc ++ [x] := by simp [insert1, hx]
      rw [h1, List.filter_cons]
      have hcond : (!(decide (x ∈ acc))) = true := by simp [hx]
      rw [if_pos hcond]
      have h2 : xs.filter (fun y => !(decide (y ∈ acc ++ [x]))) =
          (xs.filter (fun y => !(decide (y ∈ acc)))).filter (fun y => y != x) := by
        rw [List.filter_filter]
        refine List.filter_congr ?_
        intro a _
        by_cases hax : a = x
        · simp [hax]
        · by_cases haacc : a ∈ acc <;> simp [hax, haacc]
      have h3 : firstSeen (x :: xs.filter (fun y => !(decide (y ∈ acc)))) =
          x :: firstSeen ((xs.filter (fun y => !(decide (y ∈ acc)))).filter
            (fun y => y != x)) := by
        simp [firstSeen]
      rw [h3, h2, List.append_assoc]
      rfl

theorem catKeys_insertCat (cats : List (String × List Commit)) (cat : String)
    (c : Commit) :
    (insertCat cats cat c).map Prod.fst = insert1 (cats.map Prod.fst) cat := by
  induction cats with
  | nil => simp [insertCat, insert1]
  | cons p rest ih =>
    obtain ⟨k, cs⟩ := p
    simp only [insertCat]
    by_cases h : k = cat
    · simp [h, insert1]
    · have hne : ¬ cat = k := fun e => h e.symm
      simp only [if_neg h, List.map_cons, ih, insert1, List.mem_cons, hne, false_or]
      by_cases hmem : cat ∈ rest.map Prod.fst
      · simp [hmem]
      · simp [hmem]

theorem catKeys_foldl (au : Bool) (cs : List Commit) :
    ∀ g t, ((catsOf (cs.foldl (groupStep au) g) t).map Prod.fst) =
      ((cs.filter (fun c => resolveType au c.type == t)).map Commit.category).foldl
        insert1 ((catsOf g t).map Prod.fst) := by
  induction cs with
  | nil => intro g t; simp
  | cons c cs ih =>
    intro g t
    rw [List.foldl_cons, ih, List.filter_cons]
    by_cases h : resolveType au c.type = t
    · simp only [h, beq_self_eq_true, if_true, List.map_cons, List.foldl_cons]
      rw [groupStep, catsOf_insertType, h, if_pos rfl, catKeys_insertCat]
    · have hb : (resolveType au c.type == t) = false := beq_eq_false_iff_ne.mpr h
      simp only [hb, Bool.false_eq_true, if_false]
      rw [groupStep, catsOf_insertType, if_neg h]

/-- Category keys of a type bucket are the categories of the matching input
commits in first-seen order. -/
theorem catKeys_groupCommits (au : Bool) (commits : List Commit) (t : String) :
    ((catsOf (groupCommits au commits) t).map Prod.fst) =
      firstSeen ((commits.filter (fun c => resolveType au c.type == t)).map
        Commit.category) := by
  rw [groupCommits_eq_foldl, catKeys_foldl]
  simp only [catsOf_nil, List.map_nil]
  have h := foldl_insert1_eq_firstSeen
    ((commits.filter (fun c => resolveType au c.type == t)).map Commit.category) []
  rw [h]
  simp

/-! Sample inputs used by witnesses. -/

/-- A plain feature commit. -/
def sampleFeat : Commit :=
  { hash := some "1234567890abcdef", type := "feat", category := "",
    subject := some "add x", body := "", flagIfBreaking := "" }

/-- A breaking-change commit. -/
def sampleBreaking : Commit :=
  { hash := some "a6a23539feedbeef", type := "breaking", category := "",
    subject := some "big change", body := "stuff\nmore", flagIfBreaking := "BREAKING" }

/-- A commit with an unknown type token. -/
def sampleUnknown : Commit :=
  { hash := some "ffff0000ffff0000", type := "zzz", category := "",
    subject := some "odd", body := "", flagIfBreaking := "" }

/-- C3: `getCommitUrl` concatenates `base ++ "/" ++ segment ++ "/" ++ hash`,
where the segment is "commits" exactly when the base URL contains
"bitbucket" and "commit" otherwise, and a trailing ".git" is stripped from
the base exactly when it contains "gitlab"; in particular the BitBucket,
GitHub and GitLab examples evaluate as the specification states. -/
theorem getCommitUrl_correct :
    (∀ baseUrl commitHash : String,
      getCommitUrl baseUrl commitHash =
        (if strContains baseUrl "gitlab" && endsWithGit baseUrl then dropGit baseUrl
         else baseUrl) ++ "/" ++
        (if strContains baseUrl "bitbucket" then "commits" else "commit") ++ "/" ++
        commitHash) ∧
    getCommitUrl "https://bitbucket.org/x/y" "abc123" =
      "https://bitbucket.org/x/y/commits/abc123" ∧
    getCommitUrl "https://github.com/x/y" "abc123" =
      "https://github.com/x/y/commit/abc123" ∧
    getCommitUrl "https://gitlab.com/x/y.git" "abc123" =
      "https://gitlab.com/x/y/commit/abc123" := by
  refine ⟨fun b h => rfl, ?_, ?_, ?_⟩ <;> decide

/-- C2: a known catalog key is kept as the bucket key; an unknown token with
`allowUnknown` becomes its own bucket key whose heading is the catalog's
"other" label followed by the parenthesized token; an unknown token without
`allowUnknown` collapses to the fallback key "other", rendered under the
catalog's "other" heading. -/
theorem resolveType_correct :
    (∀ (au : Bool) (t : String), (typesLookup t).isSome = true → resolveType au t = t) ∧
    (∀ t : String, typesLookup t = none →
      resolveType true t = t ∧
      typeDescription true t = "Other Changes :question:" ++ " (" ++ t ++ ")") ∧
    (∀ t : String, typesLookup t = none →
      resolveType false t = "other" ∧
      typeDescription false "other" = "Other Changes :question:") := by
  refine ⟨?_, ?_, ?_⟩
  · intro au t h
    simp [resolveType, h]
  · intro t h
    refine ⟨by simp [resolveType, h], ?_⟩
    rw [typeDescription, h]
    rfl
  · intro t h
    refine ⟨?_, by decide⟩
    rw [resolveType]
    simp [h, DEFAULT_TYPE]

/-- Witness for C2 at the catalog key "feat" and the unknown token "zzz". -/
theorem resolveType_correct_witness :
    (typesLookup "feat").isSome = true ∧ resolveType false "feat" = "feat" ∧
    typesLookup "zzz" = none ∧ resolveType true "zzz" = "zzz" ∧
    typeDescription true "zzz" = "Other Changes :question:" ++ " (" ++ "zzz" ++ ")" ∧
    resolveType false "zzz" = "other" ∧
    typeDescription false "other" = "Other Changes :question:" :=
  ⟨by decide, resolveType_correct.1 false "feat" (by decide),
   by decide, (resolveType_correct.2.1 "zzz" (by decide)).1,
   (resolveType_correct.2.1 "zzz" (by decide)).2,
   (resolveType_correct.2.2 "zzz" (by decide)).1,
   (resolveType_correct.2.2 "zzz" (by decide)).2⟩

/-- C4: for a non-empty commit list, every commit lands in exactly one
(type, category) bucket (each bucket is the order-preserving filter of the
input by its keys), the buckets together are a permutation of the input,
and the rendering loop visits every input commit exactly once. -/
theorem grouping_partition (au : Bool) (commits : List Commit)
    (_hne : commits ≠ []) :
    (∀ t cat, bucketGet (groupCommits au commits) t cat =
      commits.filter (fun c => resolveType au c.type == t && c.category == cat)) ∧
    (flattenGroups (groupCommits au commits)).Perm commits ∧
    (renderedCommits au commits).Perm commits :=
  ⟨fun t cat => bucketGet_groupCommits au commits t cat,
   flattenGroups_groupCommits au commits,
   renderedCommits_perm au commits⟩

/-- Witness for C4 on a concrete two-commit list. -/
theorem grouping_partition_witness :
    ([sampleFeat, sampleUnknown] : List Commit) ≠ [] ∧
    bucketGet (groupCommits false [sampleFeat, sampleUnknown]) "feat" "" = [sampleFeat] ∧
    (flattenGroups (groupCommits false [sampleFeat, sampleUnknown])).Perm
      [sampleFeat, sampleUnknown] := by
  have h := grouping_partition false [sampleFeat, sampleUnknown] (by decide)
  refine ⟨by decide, ?_, h.2.1⟩
  rw [h.1 "feat" ""]
  decide

/-- Lexicographic order on strings by Unicode code points (the order of the
JS default sort comparator for these keys). -/
def lexLe (a b : String) : Prop :=
  a = b ∨ List.Lex (· < ·) a.data b.data

theorem charListLe_total : ∀ x y : List Char,
    charListLe x y = true ∨ charListLe y x = true := by
  intro x
  induction x with
  | nil => intro y; exact Or.inl rfl
  | cons a xs ih =>
    intro y
    cases y with
    | nil => exact Or.inr rfl
    | cons b ys =>
      rcases lt_trichotomy a b with h | h | h
      · left
        simp [charListLe, h]
      · subst h
        rcases ih ys with h2 | h2
        · left
          simp [charListLe, lt_irrefl, h2]
        · right
          simp [charListLe, lt_irrefl, h2]
      · right
        simp [charListLe, h]

theorem charListLe_trans : ∀ x y z : List Char, charListLe x y = true →
    charListLe y z = true → charListLe x z = true := by
  intro x
  induction x with
  | nil => intro y z _ _; rfl
  | cons a xs ih =>
    intro y z hxy hyz
    cases y with
    | nil => simp [charListLe] at hxy
    | cons b ys =>
      cases z with
      | nil => simp [charListLe] at hyz
      | cons c zs =>
        by_cases hab : a < b
        · by_cases hbc : b < c
          · have hac : a < c := lt_trans hab hbc
            simp [charListLe, hac]
          · by_cases hcb : c < b
            · simp [charListLe, hbc, hcb] at hyz
            · have hbceq : b = c := le_antisymm (not_lt.mp hcb) (not_lt.mp hbc)
              subst hbceq
              simp [charListLe, hab]
        · by_cases hba : b < a
          · simp [charListLe, hab, hba] at hxy
          · have habeq : a = b := le_antisymm (not_lt.mp hba) (not_lt.mp hab)
            subst habeq
            simp only [charListLe, lt_irrefl, if_false] at hxy
            by_cases hac : a < c
            · simp [charListLe, hac]
            · by_cases hca : c < a
              · simp [charListLe, hac, hca] at hyz
              · have haceq : a = c := le_antisymm (not_lt.mp hca) (not_lt.mp hac)
                subst haceq
                simp only [charListLe, lt_irrefl, if_false] at hyz ⊢
                exact ih ys zs hxy hyz

theorem charListLe_lex : ∀ x y : List Char, charListLe x y = true →
    x = y ∨ List.Lex (· < ·) x y := by
  intro x
  induction x with
  | nil =>
    intro y _
    cases y with
    | nil => exact Or.inl rfl
    | cons b ys => exact Or.inr List.Lex.nil
  | cons a xs ih =>
    intro y h
    cases y with
    | nil => simp [charListLe] at h
    | cons b ys =>
      by_cases hab : a < b
      · exact Or.inr (List.Lex.rel hab)
      · by_cases hba : b < a
        · simp [charListLe, hab, hba] at h
        · have habeq : a = b := le_antisymm (not_lt.mp hba) (not_lt.mp hab)
          subst habeq
          simp only [charListLe, lt_irrefl, if_false] at h
          rcases ih ys h with h2 | h2
          · left
            rw [h2]
          · exact Or.inr (List.Lex.cons h2)

theorem jsLeB_lexLe {a b : String} (h : jsLeB a b = true) : lexLe a b := by
  rcases charListLe_lex a.data b.data h with h2 | h2
  · exact Or.inl (String.ext h2)
  · exact Or.inr h2

/-- C5: the type keys the renderer iterates are sorted in non-decreasing
lexicographic (code-point) order — so the `#####` headings appear in that
order of their bucket keys — while inside each type bucket the category keys
stay in first-seen insertion order of the matching input commits, unsorted. -/
theorem section_order (au : Bool) (commits : List Commit) :
    List.Sorted lexLe (sortKeys ((groupCommits au commits).map Prod.fst)) ∧
    (∀ t, ((catsOf (groupCommits au commits) t).map Prod.fst) =
      firstSeen ((commits.filter (fun c => resolveType au c.type == t)).map
        Commit.category)) := by
  constructor
  · have hs : List.Sorted (fun a b => jsLeB a b = true)
        (sortKeys ((groupCommits au commits).map Prod.fst)) := by
      rw [sortKeys]
      haveI : IsTotal String (fun a b => jsLeB a b = true) :=
        ⟨fun a b => charListLe_total a.data b.data⟩
      haveI : IsTrans String (fun a b => jsLeB a b = true) :=
        ⟨fun a b c => charListLe_trans a.data b.data c.data⟩
      exact List.sorted_insertionSort _ _
    exact hs.imp (fun h => jsLeB_lexLe h)
  · exact fun t => catKeys_groupCommits au commits t

/-- C9 counterexample: on a commit whose `hash` is missing, the renderer
throws a `TypeError` (the promise rejects); it does not degrade to
blank/undefined-string rendering. -/
theorem markdown_missing_hash_throws :
    markdown "1.0.0" "2024-01-24"
      [{ hash := none, type := "feat", category := "", subject := some "add x",
         body := "", flagIfBreaking := "" }] {} =
      .error "TypeError: commit.hash is undefined" := by
  rfl

/-- C9 (amended): the renderer is total on fully-defined inputs — whenever
every commit carries a `hash` and a `subject` string it returns a document
and never an error; a missing `hash` or `subject` raises a `TypeError`
instead of degrading. -/
theorem markdown_total_of_present (version date : String) (commits : List Commit)
    (opts : Options)
    (h : ∀ c ∈ commits, c.hash.isSome = true ∧ c.subject.isSome = true) :
    ∃ doc, markdown version date commits opts = .ok doc :=
  ⟨markdownL version date commits opts, markdown_eq_ok version date commits opts h⟩

/-- Witness for C9 (amended) on a concrete commit list. -/
theorem markdown_total_of_present_witness :
    ∃ doc, markdown "1.0.0" "2024-01-24" [sampleFeat, sampleBreaking] {} = .ok doc :=
  markdown_total_of_present "1.0.0" "2024-01-24" [sampleFeat, sampleBreaking] {}
    (by decide)

/-! Machinery for body-irrelevance of non-breaking commits (C10). -/

theorem mapE_congr (f₁ f₂ : α → Except String β) (l : List α)
    (h : ∀ a ∈ l, f₁ a = f₂ a) : mapE f₁ l = mapE f₂ l := by
  induction l with
  | nil => rfl
  | cons a as ih =>
    rw [mapE, mapE, h a (List.mem_cons_self a as),
      ih (fun x hx => h x (List.mem_cons_of_mem a hx))]

theorem mapE_map_comp (f : β → Except String γ) (g : α → β) (l : List α) :
    mapE f (l.map g) = mapE (fun a => f (g a)) l := by
  induction l with
  | nil => rfl
  | cons a as ih => rw [List.map_cons, mapE, mapE, ih]

theorem firstSeen_subset : ∀ l : List String, firstSeen l ⊆ l := by
  intro l
  induction l using firstSeen.induct with
  | case1 => simp [firstSeen]
  | case2 x xs ih =>
    rw [firstSeen]
    intro a ha
    rcases List.mem_cons.mp ha with h | h
    · simp [h]
    · exact List.mem_cons_of_mem x (List.mem_of_mem_filter (ih h))

theorem firstSeen_nodup : ∀ l : List String, (firstSeen l).Nodup := by
  intro l
  induction l using firstSeen.induct with
  | case1 => simp [firstSeen]
  | case2 x xs ih =>
    rw [firstSeen]
    refine List.nodup_cons.mpr ⟨?_, ih⟩
    intro hmem
    have hx := firstSeen_subset _ hmem
    have := (List.mem_filter.mp hx).2
    simp at this

theorem catGet_eq_of_mem_nodup {cats : List (String × List Commit)}
    (hg : (cats.map Prod.fst).Nodup) {cat : String} {cs : List Commit}
    (hmem : (cat, cs) ∈ cats) : catGet cats cat = cs := by
  induction cats with
  | nil => simp at hmem
  | cons p rest ih =>
    obtain ⟨k, kcs⟩ := p
    rcases List.mem_cons.mp hmem with h | h
    · injection h with h1 h2
      rw [catGet_cons, if_pos h1.symm, h2]
    · have hk : k ≠ cat := by
        intro e
        subst e
        have : k ∈ rest.map Prod.fst := List.mem_map.mpr ⟨(k, cs), h, rfl⟩
        exact (List.nodup_cons.mp (by simpa using hg)).1 this
      rw [catGet_cons, if_neg hk]
      exact ih (List.nodup_cons.mp (by simpa using hg)).2 h

/-- Commits stored under type key `t` and category entry `p` really resolve
to those keys. -/
theorem mem_catsOf_resolve (au : Bool) (commits : List Commit) (t : String)
    {p : String × List Commit} (hp : p ∈ catsOf (groupCommits au commits) t)
    {c : Commit} (hc : c ∈ p.2) :
    resolveType au c.type = t ∧ c.category = p.1 := by
  obtain ⟨cat, cs⟩ := p
  have hkeys : ((catsOf (groupCommits au commits) t).map Prod.fst).Nodup := by
    rw [catKeys_groupCommits]
    exact firstSeen_nodup _
  have hcg : catGet (catsOf (groupCommits au commits) t) cat = cs :=
    catGet_eq_of_mem_nodup hkeys hp
  have hbg : bucketGet (groupCommits au commits) t cat = cs := hcg
  rw [bucketGet_groupCommits] at hbg
  have hcf : c ∈ commits.filter
      (fun c => resolveType au c.type == t && c.category == cat) := by
    rw [hbg]; exact hc
  have hprop := (List.mem_filter.mp hcf).2
  simp only [Bool.and_eq_true, beq_iff_eq] at hprop
  exact hprop

/-- Category-entry map applied inside each type bucket. -/
def innerMap (g : Commit → Commit) (q : String × List Commit) :
    String × List Commit :=
  (q.1, q.2.map g)

/-- Apply a commit map to every commit stored in the grouping dictionary. -/
def mapGroups (g : Commit → Commit) (G : Groups) : Groups :=
  G.map (fun p => (p.1, p.2.map (innerMap g)))

theorem insertCat_map (g : Commit → Commit) (cats : List (String × List Commit))
    (cat : String) (c : Commit) :
    insertCat (cats.map (innerMap g)) cat (g c) = (insertCat cats cat c).map (innerMap g) := by
  induction cats with
  | nil => simp [insertCat, innerMap]
  | cons p rest ih =>
    obtain ⟨k, cs⟩ := p
    by_cases h : k = cat
    · simp [insertCat, innerMap, h]
    · simp only [List.map_cons, insertCat, innerMap, if_neg h, ih]

theorem insertType_map (g : Commit → Commit) (G : Groups) (t cat : String)
    (c : Commit) :
    insertType (mapGroups g G) t cat (g c) = mapGroups g (insertType G t cat c) := by
  induction G with
  | nil => simp [insertType, mapGroups, insertCat, innerMap]
  | cons p rest ih =>
    obtain ⟨k, cats⟩ := p
    by_cases h : k = t
    · simp [insertType, mapGroups, h, insertCat_map]
    · simp only [mapGroups, List.map_cons, insertType, if_neg h] at ih ⊢
      rw [ih]

theorem groupCommits_map (au : Bool) (g : Commit → Commit)
    (hg : ∀ c, (g c).type = c.type ∧ (g c).category = c.category)
    (commits : List Commit) :
    groupCommits au (commits.map g) = mapGroups g (groupCommits au commits) := by
  rw [groupCommits_eq_foldl, groupCommits_eq_foldl]
  suffices h : ∀ G, (commits.map g).foldl (groupStep au) (mapGroups g G) =
      mapGroups g (commits.foldl (groupStep au) G) by
    simpa [mapGroups] using h []
  induction commits with
  | nil => intro G; simp
  | cons c cs ih =>
    intro G
    rw [List.map_cons, List.foldl_cons, List.foldl_cons]
    have hstep : groupStep au (mapGroups g G) (g c) = mapGroups g (groupStep au G c) := by
      rw [groupStep, groupStep, (hg c).1, (hg c).2, insertType_map]
    rw [hstep, ih]

theorem catsOf_mapGroups (g : Commit → Commit) (G : Groups) (t : String) :
    catsOf (mapGroups g G) t = (catsOf G t).map (innerMap g) := by
  induction G with
  | nil => simp [mapGroups, catsOf_nil]
  | cons p rest ih =>
    obtain ⟨k, cats⟩ := p
    simp only [mapGroups, List.map_cons] at ih ⊢
    rw [catsOf_cons, catsOf_cons]
    by_cases h : k = t
    · simp [h]
    · simp only [if_neg h]
      exact ih

theorem map_fst_mapGroups (g : Commit → Commit) (G : Groups) :
    (mapGroups g G).map Prod.fst = G.map Prod.fst := by
  simp [mapGroups]

/-- Replace the body of every commit that does not resolve to the "breaking"
bucket. -/
def redactBody (au : Bool) (f : Commit → String) (c : Commit) : Commit :=
  if resolveType au c.type = "breaking" then c else { c with body := f c }

theorem redactBody_keys (au : Bool) (f : Commit → String) (c : Commit) :
    (redactBody au f c).type = c.type ∧ (redactBody au f c).category = c.category := by
  rw [redactBody]
  by_cases h : resolveType au c.type = "breaking" <;> simp [h]

theorem formatCommit_body_irrelevant (ru : Option String) (t pfx : String)
    (c : Commit) (b' : String) (ht : t ≠ "breaking") :
    formatCommit ru t pfx { c with body := b' } = formatCommit ru t pfx c := by
  cases hh : c.hash with
  | none => simp [formatCommit, hh]
  | some h =>
    cases hs : c.subject with
    | none => simp [formatCommit, hh, hs]
    | some s =>
      simp [formatCommit, hh, hs, formatCommitP, ht]

theorem renderCategory_congr (ru : Option String) (t cat : String)
    (cs₁ cs₂ : List Commit) (hlen : cs₁.length = cs₂.length)
    (hmap : ∀ pfx, mapE (formatCommit ru t pfx) cs₁ = mapE (formatCommit ru t pfx) cs₂) :
    renderCategory ru t cat cs₁ = renderCategory ru t cat cs₂ := by
  simp only [renderCategory, hlen, hmap]

theorem markdown_redactBody (version date : String) (commits : List Commit)
    (opts : Options) (f : Commit → String) :
    markdown version date (commits.map (redactBody opts.allowUnknown f)) opts =
      markdown version date commits opts := by
  have hG : groupCommits opts.allowUnknown
        (commits.map (redactBody opts.allowUnknown f)) =
      mapGroups (redactBody opts.allowUnknown f)
        (groupCommits opts.allowUnknown commits) :=
    groupCommits_map opts.allowUnknown (redactBody opts.allowUnknown f)
      (redactBody_keys opts.allowUnknown f) commits
  have hrt : ∀ t ∈ sortKeys ((groupCommits opts.allowUnknown commits).map Prod.fst),
      renderType opts (mapGroups (redactBody opts.allowUnknown f)
        (groupCommits opts.allowUnknown commits)) t =
      renderType opts (groupCommits opts.allowUnknown commits) t := by
    intro t _
    have hcats : mapE (fun p => renderCategory opts.repoUrl t p.1 p.2)
        (catsOf (mapGroups (redactBody opts.allowUnknown f)
          (groupCommits opts.allowUnknown commits)) t) =
        mapE (fun p => renderCategory opts.repoUrl t p.1 p.2)
          (catsOf (groupCommits opts.allowUnknown commits) t) := by
      rw [catsOf_mapGroups, mapE_map_comp]
      refine mapE_congr _ _ _ ?_
      intro q hq
      obtain ⟨cat, cs⟩ := q
      simp only [innerMap]
      refine renderCategory_congr opts.repoUrl t cat _ cs (List.length_map cs _) ?_
      intro pfx
      rw [mapE_map_comp]
      refine mapE_congr _ _ _ ?_
      intro c hc
      have hres := (mem_catsOf_resolve opts.allowUnknown commits t hq hc).1
      by_cases ht : t = "breaking"
      · have hgc : redactBody opts.allowUnknown f c = c := by
          rw [redactBody, if_pos (hres.trans ht)]
        rw [hgc]
      · have hgc : redactBody opts.allowUnknown f c = { c with body := f c } := by
          rw [redactBody, if_neg (fun e => ht (hres.symm.trans e))]
        rw [hgc, formatCommit_body_irrelevant opts.repoUrl t pfx c (f c) ht]
    simp only [renderType, hcats]
  simp only [markdown, hG, map_fst_mapGroups]
  rw [mapE_congr _ _ _ hrt]

/-- C10: a commit whose resolved bucket key is not "breaking" renders as the
single flat line `prefix ++ " " ++ flag-prefix ++ trimmed-subject ++ " (" ++
shorthash-or-link ++ ")"`, and its body is discarded: rewriting the body of
every non-breaking commit leaves the entire rendered document unchanged. -/
theorem nonbreaking_line_form :
    (∀ (ru : Option String) (t pfx : String) (c : Commit) (h s : String),
      c.hash = some h → c.subject = some s → t ≠ "breaking" →
      formatCommit ru t pfx c = .ok (pfx ++ " " ++
        (if c.flagIfBreaking ≠ "" then "(" ++ c.flagIfBreaking ++ "): " else "") ++
        jsTrim (applyLinks ru t h s).2 ++ " (" ++ (applyLinks ru t h s).1 ++ ")")) ∧
    (∀ (version date : String) (commits : List Commit) (opts : Options)
      (f : Commit → String),
      markdown version date (commits.map (redactBody opts.allowUnknown f)) opts =
        markdown version date commits opts) := by
  constructor
  · intro ru t pfx c h s hh hs ht
    simp [formatCommit, hh, hs, formatCommitP, ht]
  · intro version date commits opts f
    exact markdown_redactBody version date commits opts f

/-- Witness for C10 on a concrete feature commit. -/
theorem nonbreaking_line_form_witness :
    formatCommit none "feat" "*" sampleFeat = .ok "* add x (12345678)" := by
  have h := nonbreaking_line_form.1 none "feat" "*" sampleFeat "1234567890abcdef"
    "add x" rfl rfl (by decide)
  rw [h]
  rfl

/-! Infrastructure for locating a commit's line inside the document (C1, C8). -/

theorem infix_joinNl : ∀ (ls : List String) (x : String), x ∈ ls →
    x.data <:+: (joinNl ls).data := by
  intro ls
  induction ls with
  | nil => intro x hx; simp at hx
  | cons a rest ih =>
    intro x hx
    cases rest with
    | nil =>
      rcases List.mem_cons.mp hx with h | h
      · subst h; exact List.infix_refl _
      · simp at h
    | cons b rest2 =>
      rcases List.mem_cons.mp hx with h | h
      · subst h
        rw [joinNl, String.data_append, String.data_append]
        exact ((List.prefix_append x.data _).trans
          (by rw [List.append_assoc])).isInfix
      · have hx2 := ih x h
        rw [joinNl, String.data_append]
        exact hx2.trans (List.suffix_append _ _).isInfix

theorem catGet_mem {cats : List (String × List Commit)} {cat : String}
    (hne : catGet cats cat ≠ []) : (cat, catGet cats cat) ∈ cats := by
  rw [catGet] at hne ⊢
  cases hfind : cats.find? (fun p => p.1 == cat) with
  | none => rw [hfind] at hne; simp at hne
  | some q =>
    simp only [Option.map_some', Option.getD_some]
    have hq := List.mem_of_find?_eq_some hfind
    have hbeq := List.find?_some hfind
    have hqcat : q.1 = cat := by simpa using hbeq
    have : (cat, q.2) = q := by
      obtain ⟨q1, q2⟩ := q
      simp at hqcat
      rw [hqcat]
    rw [this]
    exact hq

theorem catsOf_mem {G : Groups} {t : String} (hne : catsOf G t ≠ []) :
    (t, catsOf G t) ∈ G := by
  rw [catsOf] at hne ⊢
  cases hfind : G.find? (fun p => p.1 == t) with
  | none => rw [hfind] at hne; simp at hne
  | some q =>
    simp only [Option.map_some', Option.getD_some]
    have hq := List.mem_of_find?_eq_some hfind
    have hbeq := List.find?_some hfind
    have hqt : q.1 = t := by simpa using hbeq
    have : (t, q.2) = q := by
      obtain ⟨q1, q2⟩ := q
      simp at hqt
      rw [hqt]
    rw [this]
    exact hq

theorem trimRight_eq_self {l : List Char} {c : Char} (hlast : l.getLast? = some c)
    (hws : c.isWhitespace = false) :
    (l.reverse.dropWhile Char.isWhitespace).reverse = l := by
  have hne : l ≠ [] := by
    intro e; rw [e] at hlast; simp at hlast
  have hc : l.getLast hne = c := by
    have h := List.getLast?_eq_getLast l hne
    rw [h] at hlast
    injection hlast
  have hl := List.dropLast_append_getLast hne
  conv_lhs => rw [← hl]
  rw [List.reverse_append, List.reverse_singleton, List.singleton_append,
    List.dropWhile_cons]
  simp only [hc, hws, Bool.false_eq_true, if_false]
  rw [List.reverse_cons, List.reverse_reverse, ← hc]
  exact hl

/-- The collapsible detail block described by the specification, for a
commit of the breaking bucket with fields `h` (hash) and `s` (subject). -/
def detailsBlock (ru : Option String) (h s : String) (c : Commit) : String :=
  "<details>\n      <summary>" ++
    (if c.flagIfBreaking ≠ "" then "(" ++ c.flagIfBreaking ++ "): " else "") ++
    jsTrim (applyLinks ru "breaking" h s).2 ++ " (" ++
    (applyLinks ru "breaking" h s).1 ++ ")</summary>\n\n" ++
    indentBody ("      " ++ stripBody c.body) ++ "</details>"

theorem detailsBlock_getLast (ru : Option String) (h s : String) (c : Commit) :
    (detailsBlock ru h s c).data.getLast? = some '>' := by
  rw [detailsBlock, String.data_append, List.getLast?_append]
  rfl

theorem jsTrim_indented {P : String} (hlast : P.data.getLast? = some '>') :
    jsTrim ("\n   * " ++ P) = "* " ++ P := by
  apply String.ext
  rw [jsTrim]
  have h1 : (("\n   * " ++ P).data).dropWhile Char.isWhitespace =
      '*' :: ' ' :: P.data := by
    rw [String.data_append]
    rfl
  have h2 : ('*' :: ' ' :: P.data).getLast? = some '>' := by
    have he : '*' :: ' ' :: P.data = ['*', ' '] ++ P.data := rfl
    rw [he, List.getLast?_append, hlast]
    rfl
  show (((("\n   * " ++ P).data).dropWhile Char.isWhitespace).reverse.dropWhile
      Char.isWhitespace).reverse = ("* " ++ P).data
  rw [h1, trimRight_eq_self h2 (by decide)]
  rfl

theorem formatCommitPure_breaking (ru : Option String) (pfx : String) (c : Commit)
    (h s : String) (hh : c.hash = some h) (hs : c.subject = some s) :
    formatCommitPure ru "breaking" pfx c =
      if pfx = "*" then " " ++ ("* " ++ detailsBlock ru h s c)
      else pfx ++ " " ++ ("\n   * " ++ detailsBlock ru h s c) := by
  have hb2 : ¬ ("      " ++ stripBody c.body) = "" := by
    intro e
    have h3 := congrArg String.data e
    rw [String.data_append] at h3
    simp at h3
  simp only [formatCommitPure, formatCommitP, hh, hs, Option.getD_some]
  rw [if_pos hb2]
  have hsplit : ("\n   * <details>\n      <summary>" ++
      (if c.flagIfBreaking ≠ "" then "(" ++ c.flagIfBreaking ++ "): " else "") ++
      jsTrim (applyLinks ru "breaking" h s).2 ++ " (" ++
      (applyLinks ru "breaking" h s).1 ++ ")</summary>\n\n" ++
      indentBody ("      " ++ stripBody c.body) ++ "</details>") =
      "\n   * " ++ detailsBlock ru h s c := by
    apply String.ext
    rw [detailsBlock]
    simp only [String.data_append, List.append_assoc]
    rfl
  rw [hsplit]
  have hne2 : ¬ ("\n   * " ++ detailsBlock ru h s c) = "" := by
    intro e
    have h3 := congrArg String.data e
    rw [String.data_append] at h3
    simp at h3
  rw [if_pos ⟨trivial, hne2⟩]
  by_cases hp : pfx = "*"
  · rw [if_pos hp, if_pos hp, jsTrim_indented (detailsBlock_getLast ru h s c)]
  · rw [if_neg hp, if_neg hp]

/-- C1 counterexample: a commit of the "feat" bucket renders as a plain
bullet line; the document for it contains no detail block at all (not even a
single angle bracket), refuting "every commit renders as a collapsible
detail block". -/
theorem nonbreaking_no_details_counterexample :
    markdown "1.0.0" "2024-01-24" [sampleFeat] {} =
      .ok "#### 1.0.0 (2024-01-24)\n\n##### New Features :sparkles:\n\n* add x (12345678)\n\n" ∧
    '<' ∉ ("#### 1.0.0 (2024-01-24)\n\n##### New Features :sparkles:\n\n* add x (12345678)\n\n" : String).data := by
  constructor
  · rfl
  · decide

/-- C1 (amended): every commit of the "breaking" bucket renders as a
collapsible detail block `<details>…<summary><breaking-prefix>
<trimmed-subject> (<shorthash-or-link>)</summary>`, followed by the indented
body and `</details>`, which appears verbatim inside the rendered
document. -/
theorem line_mem_contentL (version date : String) (commits : List Commit)
    (opts : Options) (c : Commit) (hc : c ∈ commits) :
    ∃ pfx, formatCommitPure opts.repoUrl (resolveType opts.allowUnknown c.type) pfx c ∈
      contentL version date commits opts := by
  set G := groupCommits opts.allowUnknown commits with hG
  set t0 := resolveType opts.allowUnknown c.type with ht0
  have hbucket : c ∈ bucketGet G t0 c.category := by
    rw [hG, bucketGet_groupCommits]
    refine List.mem_filter.mpr ⟨hc, ?_⟩
    simp [ht0]
  have hbne : bucketGet G t0 c.category ≠ [] := by
    intro e
    rw [e] at hbucket
    simp at hbucket
  have hqmem : (c.category, bucketGet G t0 c.category) ∈ catsOf G t0 :=
    catGet_mem hbne
  have hcats_ne : catsOf G t0 ≠ [] := by
    intro e
    rw [e] at hqmem
    simp at hqmem
  have htype_mem : t0 ∈ G.map Prod.fst :=
    List.mem_map.mpr ⟨(t0, catsOf G t0), catsOf_mem hcats_ne, rfl⟩
  have htkey : t0 ∈ sortKeys (G.map Prod.fst) := by
    rw [sortKeys]
    exact (List.perm_insertionSort _ _).mem_iff.mpr htype_mem
  set cs := bucketGet G t0 c.category with hcs
  refine ⟨if cs.length > 1 ∧ c.category ≠ "" then "  *"
    else "*" ++ (if c.category ≠ "" then " **" ++ c.category ++ ":**" else ""), ?_⟩
  set pfx := if cs.length > 1 ∧ c.category ≠ "" then "  *"
    else "*" ++ (if c.category ≠ "" then " **" ++ c.category ++ ":**" else "") with hpfx
  have hline : formatCommitPure opts.repoUrl t0 pfx c ∈
      renderCategoryL opts.repoUrl t0 c.category cs := by
    simp only [renderCategoryL]
    exact List.mem_append.mpr (Or.inr (List.mem_map.mpr ⟨c, hbucket, rfl⟩))
  have hlines2 : formatCommitPure opts.repoUrl t0 pfx c ∈ renderTypeL opts G t0 := by
    have hfl : formatCommitPure opts.repoUrl t0 pfx c ∈
        ((catsOf G t0).map
          (fun p => renderCategoryL opts.repoUrl t0 p.1 p.2)).flatten :=
      List.mem_flatten.mpr ⟨renderCategoryL opts.repoUrl t0 c.category cs,
        List.mem_map.mpr ⟨(c.category, cs), hqmem, rfl⟩, hline⟩
    simp only [renderTypeL, List.append_assoc, List.mem_append]
    exact Or.inr (Or.inl hfl)
  have hfl : formatCommitPure opts.repoUrl t0 pfx c ∈
      ((sortKeys (G.map Prod.fst)).map (renderTypeL opts G)).flatten :=
    List.mem_flatten.mpr ⟨renderTypeL opts G t0,
      List.mem_map.mpr ⟨t0, htkey, rfl⟩, hlines2⟩
  simp only [contentL, List.append_assoc, List.mem_append]
  exact Or.inr (Or.inl hfl)

theorem breaking_details_block (version date : String) (commits : List Commit)
    (opts : Options) (c : Commit) (h s : String)
    (hpres : ∀ x ∈ commits, x.hash.isSome = true ∧ x.subject.isSome = true)
    (hc : c ∈ commits) (hh : c.hash = some h) (hs : c.subject = some s)
    (hbr : resolveType opts.allowUnknown c.type = "breaking") :
    ∃ doc, markdown version date commits opts = .ok doc ∧
      (detailsBlock opts.repoUrl h s c).data <:+: doc.data := by
  refine ⟨markdownL version date commits opts,
    markdown_eq_ok version date commits opts hpres, ?_⟩
  obtain ⟨pfx, hmem⟩ := line_mem_contentL version date commits opts c hc
  rw [hbr] at hmem
  have hinfix1 : (formatCommitPure opts.repoUrl "breaking" pfx c).data <:+:
      (markdownL version date commits opts).data := by
    rw [markdownL]
    exact infix_joinNl _ _ hmem
  have hblock : (detailsBlock opts.repoUrl h s c).data <:+:
      (formatCommitPure opts.repoUrl "breaking" pfx c).data := by
    rw [formatCommitPure_breaking opts.repoUrl pfx c h s hh hs]
    by_cases hp : pfx = "*"
    · rw [if_pos hp, String.data_append, String.data_append]
      exact ((List.suffix_append _ _).trans (List.suffix_append _ _)).isInfix
    · rw [if_neg hp, String.data_append, String.data_append]
      exact ((List.suffix_append _ _).trans (List.suffix_append _ _)).isInfix
  exact hblock.trans hinfix1

/-- Witness for C1 (amended) on a concrete breaking commit. -/
theorem breaking_details_block_witness :
    ∃ doc, markdown "2.0.0" "2024-01-24" [sampleBreaking] {} = .ok doc ∧
      (detailsBlock none "a6a23539feedbeef" "big change" sampleBreaking).data <:+:
        doc.data :=
  breaking_details_block "2.0.0" "2024-01-24" [sampleBreaking] {} sampleBreaking
    "a6a23539feedbeef" "big change" (by decide) (List.mem_singleton.mpr rfl)
    rfl rfl (by decide)

/-! Lemmas about the PR-reference rewriting scan (C7). -/

theorem takeWhile_append_of_all {p : Char → Bool} {l₁ l₂ : List Char}
    (h : ∀ x ∈ l₁, p x = true) : (l₁ ++ l₂).takeWhile p = l₁ ++ l₂.takeWhile p := by
  induction l₁ with
  | nil => simp
  | cons x l ih =>
    rw [List.cons_append, List.takeWhile_cons, if_pos (h x (List.mem_cons_self x l)),
      ih (fun y hy => h y (List.mem_cons_of_mem x hy))]
    rfl

theorem dropWhile_append_of_all {p : Char → Bool} {l₁ l₂ : List Char}
    (h : ∀ x ∈ l₁, p x = true) : (l₁ ++ l₂).dropWhile p = l₂.dropWhile p := by
  induction l₁ with
  | nil => simp
  | cons x l ih =>
    rw [List.cons_append, List.dropWhile_cons, if_pos (h x (List.mem_cons_self x l)),
      ih (fun y hy => h y (List.mem_cons_of_mem x hy))]

theorem prScan_cons_ne (wrap : String → String) {ch : Char} (L : List Char)
    (h : ch ≠ '#') : prScan wrap (ch :: L) = ch :: prScan wrap L := by
  rw [prScan.eq_def]
  simp [h]

theorem prScan_hash_digit (wrap : String → String) {d : Char} (rest2 : List Char)
    (h : '1' ≤ d ∧ d ≤ '9') :
    prScan wrap ('#' :: d :: rest2) =
      (wrap ⟨'#' :: d :: rest2.takeWhile Char.isDigit⟩).data ++
        prScan wrap (rest2.dropWhile Char.isDigit) := by
  rw [prScan.eq_def]
  simp [h]

theorem prScan_no_hash (wrap : String → String) :
    ∀ l : List Char, (∀ ch ∈ l, ch ≠ '#') → prScan wrap l = l := by
  intro l
  induction l with
  | nil =>
    intro _
    rw [prScan.eq_def]
  | cons ch rest ih =>
    intro h
    rw [prScan_cons_ne wrap rest (h ch (List.mem_cons_self ch rest)),
      ih (fun x hx => h x (List.mem_cons_of_mem ch hx))]

theorem prScan_match (wrap : String → String) {d : Char} (hd19 : '1' ≤ d ∧ d ≤ '9') :
    ∀ (A : List Char), (∀ ch ∈ A, ch ≠ '#') → ∀ (ds' B : List Char),
      (∀ x ∈ ds', x.isDigit = true) → (∀ x, B.head? = some x → x.isDigit = false) →
      prScan wrap (A ++ '#' :: d :: (ds' ++ B)) =
        A ++ (wrap ⟨'#' :: d :: ds'⟩).data ++ prScan wrap B := by
  intro A
  induction A with
  | nil =>
    intro _ ds' B hds hB
    have htake : (ds' ++ B).takeWhile Char.isDigit = ds' := by
      rw [takeWhile_append_of_all hds]
      cases B with
      | nil => simp
      | cons x B' =>
        rw [List.takeWhile_cons, if_neg (by simp [hB x rfl])]
        simp
    have hdrop : (ds' ++ B).dropWhile Char.isDigit = B := by
      rw [dropWhile_append_of_all hds]
      cases B with
      | nil => rfl
      | cons x B' =>
        rw [List.dropWhile_cons, if_neg (by simp [hB x rfl])]
    rw [List.nil_append, prScan_hash_digit wrap _ hd19, htake, hdrop, List.nil_append]
  | cons ch A' ih =>
    intro hA ds' B hds hB
    rw [List.cons_append, prScan_cons_ne wrap _ (hA ch (List.mem_cons_self ch A')),
      ih (fun x hx => hA x (List.mem_cons_of_mem ch hx)) ds' B hds hB]
    rfl

/-- One PR-reference match: a hash sign followed by a non-zero digit and a
greedy run of digits, found after a hash-free prefix, is handed to the wrap
callback, and scanning resumes after the digits. -/
theorem replacePR_step (wrap : String → String) (a b : String) (d : Char)
    (ds' : List Char) (ha : ∀ ch ∈ a.data, ch ≠ '#') (hd : '1' ≤ d ∧ d ≤ '9')
    (hds : ∀ x ∈ ds', x.isDigit = true)
    (hb : ∀ x, b.data.head? = some x → x.isDigit = false) :
    replacePR wrap (a ++ ⟨'#' :: d :: ds'⟩ ++ b) =
      a ++ wrap ⟨'#' :: d :: ds'⟩ ++ replacePR wrap b := by
  apply String.ext
  rw [replacePR, replacePR]
  simp only [String.data_append]
  have hshape : a.data ++ ('#' :: d :: ds') ++ b.data =
      a.data ++ '#' :: d :: (ds' ++ b.data) := by
    simp [List.append_assoc]
  rw [hshape, prScan_match wrap hd a.data ha ds' b.data hds hb]

theorem replacePR_no_hash (wrap : String → String) (s : String)
    (h : ∀ ch ∈ s.data, ch ≠ '#') : replacePR wrap s = s := by
  apply String.ext
  rw [replacePR]
  exact prScan_no_hash wrap s.data h

/-- C7: when `repoUrl` is present, every `#<non-zero digits>` substring of
the subject, scanned left-to-right, is rewritten into a link to
`<repoUrl>/pull/<number>` — a Markdown link for non-breaking commits and an
HTML anchor for the "breaking" bucket — and in particular subject
`"fix bug (#12)"` renders as the specification shows; when `repoUrl` is
absent the subject is used verbatim. -/
theorem pr_rewrite_correct :
    (∀ (wrap : String → String) (a b : String) (d : Char) (ds' : List Char),
      (∀ ch ∈ a.data, ch ≠ '#') → ('1' ≤ d ∧ d ≤ '9') →
      (∀ x ∈ ds', x.isDigit = true) →
      (∀ x, b.data.head? = some x → x.isDigit = false) →
      replacePR wrap (a ++ ⟨'#' :: d :: ds'⟩ ++ b) =
        a ++ wrap ⟨'#' :: d :: ds'⟩ ++ replacePR wrap b) ∧
    (∀ (u hsh t : String), t ≠ "breaking" →
      (applyLinks (some u) t hsh "fix bug (#12)").2 =
        "fix bug ([#12](" ++ u ++ "/pull/12))") ∧
    (∀ u hsh : String,
      (applyLinks (some u) "breaking" hsh "fix bug (#12)").2 =
        "fix bug (<a href=\"" ++ u ++ "/pull/12\">#12</a>)") ∧
    (∀ t hsh s : String, applyLinks none t hsh s = (shortHash hsh, s)) := by
  refine ⟨replacePR_step, ?_, ?_, fun t hsh s => rfl⟩
  · intro u hsh t ht
    simp only [applyLinks, if_neg ht]
    rw [show ("fix bug (#12)" : String) = "fix bug (" ++ ⟨'#' :: '1' :: ['2']⟩ ++ ")"
      from rfl]
    rw [replacePR_step _ "fix bug (" ")" '1' ['2'] (by decide) (by decide) (by decide)
      (by decide)]
    rw [replacePR_no_hash _ ")" (by decide)]
    apply String.ext
    simp only [String.data_append, prNum, List.append_assoc]
    rfl
  · intro u hsh
    simp only [applyLinks]
    rw [if_pos trivial]
    rw [show ("fix bug (#12)" : String) = "fix bug (" ++ ⟨'#' :: '1' :: ['2']⟩ ++ ")"
      from rfl]
    rw [replacePR_step _ "fix bug (" ")" '1' ['2'] (by decide) (by decide) (by decide)
      (by decide)]
    rw [replacePR_no_hash _ ")" (by decide)]
    apply String.ext
    simp only [String.data_append, prNum, List.append_assoc]
    rfl

/-- Witness for C7: the PR in subject "fix bug (#12)" (non-breaking, GitHub
repo URL) is rewritten into a Markdown link. -/
theorem pr_rewrite_correct_witness :
    (applyLinks (some "https://github.com/x/y") "fix" "1234567890abcdef"
      "fix bug (#12)").2 = "fix bug ([#12](https://github.com/x/y/pull/12))" := by
  have h := pr_rewrite_correct.2.1 "https://github.com/x/y" "1234567890abcdef" "fix"
    (by decide)
  rw [h]
  rfl

/-! Link generation (C8). -/

/-- Adjacent-pair scanner: `true` iff the characters `a` then `b` occur
adjacently somewhere in the list (used to express absence of the link
markers "](" and "<a"). -/
def hasPair (a b : Char) : List Char → Bool
  | [] => false
  | x :: rest =>
    (x == a && (match rest.head? with | some y => y == b | none => false)) ||
      hasPair a b rest

/-- A breaking commit with an empty body, for concrete whole-document
evaluations. -/
def sampleBreakingPlain : Commit :=
  { hash := some "a6a23539feedbeef", type := "breaking", category := "",
    subject := some "big change", body := "", flagIfBreaking := "BREAKING" }

theorem str_infix_middle (A x B : String) : x.data <:+: (A ++ x ++ B).data := by
  rw [String.data_append, String.data_append]
  exact List.infix_append _ _ _

theorem applyLinks_md (u t h s : String) (ht : t ≠ "breaking") :
    (applyLinks (some u) t h s).1 =
      "[" ++ shortHash h ++ "](" ++ getCommitUrl u h ++ ")" := by
  simp [applyLinks, ht]

theorem applyLinks_anchor (u h s : String) :
    (applyLinks (some u) "breaking" h s).1 =
      "<a href=\"" ++ getCommitUrl u h ++ "\">" ++ shortHash h ++ "</a>" := by
  simp only [applyLinks]
  rw [if_pos trivial]

theorem formatCommitPure_nonbreaking (ru : Option String) (t pfx : String)
    (c : Commit) (h s : String) (hh : c.hash = some h) (hs : c.subject = some s)
    (ht : t ≠ "breaking") :
    formatCommitPure ru t pfx c = pfx ++ " " ++
      (if c.flagIfBreaking ≠ "" then "(" ++ c.flagIfBreaking ++ "): " else "") ++
      jsTrim (applyLinks ru t h s).2 ++ " (" ++ (applyLinks ru t h s).1 ++ ")" := by
  simp [formatCommitPure, formatCommitP, hh, hs, ht]

theorem detailsBlock_infix_line (ru : Option String) (pfx : String) (c : Commit)
    (h s : String) (hh : c.hash = some h) (hs : c.subject = some s) :
    (detailsBlock ru h s c).data <:+: (formatCommitPure ru "breaking" pfx c).data := by
  rw [formatCommitPure_breaking ru pfx c h s hh hs]
  by_cases hp : pfx = "*"
  · rw [if_pos hp, String.data_append, String.data_append]
    exact ((List.suffix_append _ _).trans (List.suffix_append _ _)).isInfix
  · rw [if_neg hp, String.data_append, String.data_append]
    exact ((List.suffix_append _ _).trans (List.suffix_append _ _)).isInfix

set_option maxRecDepth 40000 in
/-- C8: with `repoUrl` absent, the shorthash is the plain 8-character prefix
of the hash and the subject is used verbatim (no link or anchor markup is
derived from them), and a whole rendered document over plain inputs contains
neither "](" nor "<a"; with `repoUrl` present, every commit's shorthash
appears in the document wrapped in a Markdown link (or an HTML anchor for
the breaking bucket) pointing at the commit URL of the full hash. -/
theorem link_generation :
    (∀ t hsh s : String, applyLinks none t hsh s = (shortHash hsh, s)) ∧
    (∀ (version date : String) (commits : List Commit) (opts : Options)
      (u : String) (c : Commit) (h s : String),
      (∀ x ∈ commits, x.hash.isSome = true ∧ x.subject.isSome = true) →
      opts.repoUrl = some u → c ∈ commits → c.hash = some h → c.subject = some s →
      ∃ doc, markdown version date commits opts = .ok doc ∧
        (if resolveType opts.allowUnknown c.type = "breaking" then
          "<a href=\"" ++ getCommitUrl u h ++ "\">" ++ shortHash h ++ "</a>"
         else
          "[" ++ shortHash h ++ "](" ++ getCommitUrl u h ++ ")").data <:+: doc.data) ∧
    (∃ doc, markdown "1.0.0" "2024-01-24"
        [sampleFeat, sampleUnknown, sampleBreakingPlain] {} = .ok doc ∧
      hasPair ']' '(' doc.data = false ∧ hasPair '<' 'a' doc.data = false) := by
  refine ⟨fun t hsh s => rfl, ?_,
    ⟨markdownL "1.0.0" "2024-01-24" [sampleFeat, sampleUnknown, sampleBreakingPlain] {},
      markdown_eq_ok "1.0.0" "2024-01-24"
        [sampleFeat, sampleUnknown, sampleBreakingPlain] {} (by decide),
      by decide, by decide⟩⟩
  intro version date commits opts u c h s hpres hru hc hh hs
  refine ⟨markdownL version date commits opts,
    markdown_eq_ok version date commits opts hpres, ?_⟩
  obtain ⟨pfx, hmem⟩ := line_mem_contentL version date commits opts c hc
  have hdoc : (formatCommitPure opts.repoUrl (resolveType opts.allowUnknown c.type)
      pfx c).data <:+: (markdownL version date commits opts).data := by
    rw [markdownL]
    exact infix_joinNl _ _ hmem
  by_cases hbr : resolveType opts.allowUnknown c.type = "breaking"
  · rw [if_pos hbr]
    rw [hbr] at hdoc
    have hanchor : ("<a href=\"" ++ getCommitUrl u h ++ "\">" ++ shortHash h ++
        "</a>").data <:+: (detailsBlock opts.repoUrl h s c).data := by
      rw [hru]
      have heq : detailsBlock (some u) h s c =
          ("<details>\n      <summary>" ++
            (if c.flagIfBreaking ≠ "" then "(" ++ c.flagIfBreaking ++ "): " else "") ++
            jsTrim (applyLinks (some u) "breaking" h s).2 ++ " (") ++
          ("<a href=\"" ++ getCommitUrl u h ++ "\">" ++ shortHash h ++ "</a>") ++
          (")</summary>\n\n" ++ indentBody ("      " ++ stripBody c.body) ++
            "</details>") := by
        apply String.ext
        rw [detailsBlock, applyLinks_anchor]
        simp only [String.data_append, List.append_assoc]
      rw [heq]
      exact str_infix_middle _ _ _
    exact hanchor.trans
      ((detailsBlock_infix_line opts.repoUrl pfx c h s hh hs).trans hdoc)
  · rw [if_neg hbr]
    have hline := formatCommitPure_nonbreaking opts.repoUrl _ pfx c h s hh hs hbr
    have hmd : ("[" ++ shortHash h ++ "](" ++ getCommitUrl u h ++ ")").data <:+:
        (formatCommitPure opts.repoUrl (resolveType opts.allowUnknown c.type)
          pfx c).data := by
      rw [hline, hru, applyLinks_md u _ h s hbr]
      exact str_infix_middle _ _ _
    exact hmd.trans hdoc

/-- Witness for C8 on a concrete commit with a GitHub repository URL. -/
theorem link_generation_witness :
    ∃ doc, markdown "1.0.0" "2024-01-24" [sampleFeat]
        { repoUrl := some "https://github.com/x/y" } = .ok doc ∧
      (if resolveType ({ repoUrl := some "https://github.com/x/y" } :
          Options).allowUnknown sampleFeat.type = "breaking" then
        "<a href=\"" ++ getCommitUrl "https://github.com/x/y" "1234567890abcdef" ++
          "\">" ++ shortHash "1234567890abcdef" ++ "</a>"
       else
        "[" ++ shortHash "1234567890abcdef" ++ "](" ++
          getCommitUrl "https://github.com/x/y" "1234567890abcdef" ++ ")").data <:+:
        doc.data :=
  link_generation.2.1 "1.0.0" "2024-01-24" [sampleFeat]
    { repoUrl := some "https://github.com/x/y" } "https://github.com/x/y" sampleFeat
    "1234567890abcdef" "add x" (by decide) rfl (List.mem_singleton.mpr rfl) rfl rfl

-- Characterization of the trailer-strip substitutions (writer.js lines 134-136).

/-- The character data of a block of body lines, each preceded by a newline. -/
def linesData : List (List Char) → List Char
  | [] => []
  | l :: ls => '\n' :: (l ++ linesData ls)

/-- A block of body lines rendered as a string, each preceded by a newline. -/
def specLines (ls : List String) : String :=
  ⟨linesData (ls.map String.data)⟩

/-- Lines that are nonempty, newline-free and do not start with marker `m`. -/
def cleanL (m : List Char) (L : List (List Char)) : Prop :=
  ∀ l ∈ L, l ≠ [] ∧ '\n' ∉ l ∧ m.isPrefixOf l = false

theorem isPrefixOf_append_self : ∀ (m t : List Char), m.isPrefixOf (m ++ t) = true := by
  intro m
  induction m with
  | nil =>
    intro t
    cases t with
    | nil => rfl
    | cons c t => rfl
  | cons c m ih => intro t; simp [List.isPrefixOf, ih]

theorem isPrefixOf_line_false :
    ∀ (m l t : List Char), m.isPrefixOf l = false → '\n' ∉ m →
      (t = [] ∨ t.head? = some '\n') → m.isPrefixOf (l ++ t) = false := by
  intro m
  induction m with
  | nil =>
    intro l t hml _ _
    simp [List.isPrefixOf] at hml
  | cons c m ih =>
    intro l t hml hmn ht
    have hc : c ≠ '\n' := fun h => hmn (by rw [h]; exact List.mem_cons_self _ _)
    have hmn' : '\n' ∉ m := fun h => hmn (List.mem_cons_of_mem _ h)
    cases l with
    | nil =>
      cases t with
      | nil => rfl
      | cons d t' =>
        rcases ht with h | h
        · exact absurd h (by simp)
        · have hd : d = '\n' := by simpa using h
          subst hd
          simp [List.isPrefixOf, hc]
    | cons d l' =>
      simp only [List.isPrefixOf, List.cons_append] at hml ⊢
      by_cases hcd : (c == d) = true
      · simp only [hcd, Bool.true_and] at hml ⊢
        exact ih l' t hml hmn' ht
      · simp [Bool.eq_false_iff.mpr hcd]

/-- A newline-free nonempty chunk stops a leading `dropWhile (== newline)`. -/
theorem dropNl_line (l X : List Char) (hl : l ≠ []) (hln : '\n' ∉ l) :
    (l ++ X).dropWhile (fun c => c == '\n') = l ++ X := by
  rcases List.exists_cons_of_ne_nil hl with ⟨a, l', rfl⟩
  have ha : a ≠ '\n' := fun h => hln (by rw [h]; exact List.mem_cons_self _ _)
  simp [List.dropWhile_cons, ha]

/-- `dropWhile (!= newline)` over a newline-free chunk followed by a line
block lands exactly at the line block. -/
theorem dropToNl (R : List Char) (hR : '\n' ∉ R) (L : List (List Char)) :
    (R ++ linesData L).dropWhile (fun c => c != '\n') = linesData L := by
  rw [dropWhile_append_of_all (fun x hx => by
    simp only [bne_iff_ne, ne_eq, decide_eq_true_eq]
    exact fun h => hR (h ▸ hx))]
  cases L with
  | nil => rfl
  | cons l ls => simp [linesData, List.dropWhile_cons]

theorem consumeLines_linesData :
    ∀ (k : Nat) (L : List (List Char)), (∀ l ∈ L, l ≠ [] ∧ '\n' ∉ l) →
      consumeLines k (linesData L) = linesData (L.drop k) := by
  intro k
  induction k with
  | zero => intro L _; rfl
  | succ k ih =>
    intro L hL
    cases L with
    | nil =>
      show consumeLines (k + 1) [] = []
      have h0 : consumeLines k (linesData []) = linesData ([].drop k) := ih [] (by simp)
      simpa [consumeLines, linesData] using h0
    | cons l ls =>
      obtain ⟨hl, hln⟩ := hL l (List.mem_cons_self _ _)
      have hls : ∀ x ∈ ls, x ≠ [] ∧ '\n' ∉ x := fun x hx => hL x (List.mem_cons_of_mem _ hx)
      show consumeLines k
        (((linesData (l :: ls)).dropWhile (fun c => c == '\n')).dropWhile
          (fun c => c != '\n')) = _
      have h1 : (linesData (l :: ls)).dropWhile (fun c => c == '\n') = l ++ linesData ls := by
        show (('\n' :: (l ++ linesData ls)).dropWhile (fun c => c == '\n')) = _
        rw [List.dropWhile_cons]
        simp only [beq_self_eq_true, if_true]
        exact dropNl_line l (linesData ls) hl hln
      rw [h1, dropToNl l hln ls, ih ls hls]
      rfl

/-- Scanning distributes over a newline-free prefix. -/
theorem stripScan_walk (m : List Char) (k : Nat) (X Y : List Char)
    (hXY : stripScan m k X = Y) :
    ∀ A : List Char, '\n' ∉ A → stripScan m k (A ++ X) = A ++ Y := by
  intro A
  induction A with
  | nil => intro _; simpa using hXY
  | cons c A' ih =>
    intro hA
    have hc : c ≠ '\n' := fun h => hA (by rw [h]; exact List.mem_cons_self _ _)
    have hA' : '\n' ∉ A' := fun h => hA (List.mem_cons_of_mem _ h)
    rw [stripScan.eq_def]
    simp only [List.cons_append]
    simp [hc, ih hA']

/-- A line block whose lines never start with the marker is left unchanged. -/
theorem stripScan_id (m : List Char) (k : Nat) (hmn : '\n' ∉ m) :
    ∀ L : List (List Char), cleanL m L →
      stripScan m k (linesData L) = linesData L := by
  intro L
  induction L with
  | nil =>
    intro _
    show stripScan m k [] = []
    rw [stripScan.eq_def]
  | cons l ls ih =>
    intro hL
    obtain ⟨hl, hln, hlp⟩ := hL l (List.mem_cons_self _ _)
    have hls : cleanL m ls := fun x hx => hL x (List.mem_cons_of_mem _ hx)
    show stripScan m k ('\n' :: (l ++ linesData ls)) = _
    rw [stripScan.eq_def]
    have hdrop : (l ++ linesData ls).dropWhile (fun x => x == '\n') = l ++ linesData ls :=
      dropNl_line l (linesData ls) hl hln
    have hpref : m.isPrefixOf (l ++ linesData ls) = false := by
      refine isPrefixOf_line_false m l (linesData ls) hlp hmn ?_
      cases ls with
      | nil => exact Or.inl rfl
      | cons x xs => exact Or.inr rfl
    simp only [if_pos rfl, hdrop, hpref, Bool.false_eq_true, if_false]
    show '\n' :: stripScan m k (l ++ linesData ls) = '\n' :: (l ++ linesData ls)
    rw [stripScan_walk m k (linesData ls) (linesData ls) (ih hls) l hln]

/-- A line block headed by a marker line: the match consumes the marker line
and `k` further lines and is replaced by a newline and a space. -/
theorem stripScan_match (m : List Char) (k : Nat) (hmn : '\n' ∉ m) (hm : m ≠ [])
    (R : List Char) (hR : '\n' ∉ R) (L : List (List Char)) (hL : cleanL m L) :
    stripScan m k (linesData ((m ++ R) :: L)) = '\n' :: ' ' :: linesData (L.drop k) := by
  show stripScan m k ('\n' :: ((m ++ R) ++ linesData L)) = _
  rw [stripScan.eq_def]
  have hmr : '\n' ∉ m ++ R := by
    intro h
    rcases List.mem_append.mp h with h | h
    · exact hmn h
    · exact hR h
  have hdrop : ((m ++ R) ++ linesData L).dropWhile (fun x => x == '\n')
      = (m ++ R) ++ linesData L :=
    dropNl_line (m ++ R) (linesData L) (by simp [hm]) hmr
  have hpref : m.isPrefixOf ((m ++ R) ++ linesData L) = true := by
    rw [List.append_assoc]
    exact isPrefixOf_append_self m (R ++ linesData L)
  simp only [if_pos rfl, hdrop, hpref, if_true]
  have hdrop2 : ((m ++ R) ++ linesData L).drop m.length = R ++ linesData L := by
    rw [List.append_assoc]
    exact List.drop_left m (R ++ linesData L)
  rw [hdrop2, dropToNl R hR L,
    consumeLines_linesData k L (fun l hl => ⟨(hL l hl).1, (hL l hl).2.1⟩),
    stripScan_id m k hmn (L.drop k) (fun l hl => hL l (List.drop_subset _ _ hl))]

-- String level

theorem specLines_ne_empty (x : String) (L : List String) (A : String) :
    A ++ specLines (x :: L) ≠ "" := by
  intro h
  have hd : (A ++ specLines (x :: L)).data = [] := by rw [h]
  simp [String.data_append, specLines, linesData] at hd

/-- Body lines that never start with any of the three trailer markers. -/
def cleanBodyLines (L : List String) : Prop :=
  ∀ l ∈ L, l ≠ "" ∧ '\n' ∉ l.data ∧
    ("END BREAKING CHANGE".data.isPrefixOf l.data = false) ∧
    ("See".data.isPrefixOf l.data = false) ∧
    ("Closes".data.isPrefixOf l.data = false)

instance (L : List String) : Decidable (cleanBodyLines L) := by
  unfold cleanBodyLines
  infer_instance

theorem data_ne_nil {l : String} (h : l ≠ "") : l.data ≠ [] := by
  intro hd
  exact h (String.ext hd)

/-- One substitution pass leaves a marker-free body unchanged. -/
theorem stripReplace_id (m : String) (k : Nat) (hmn : '\n' ∉ m.data)
    (A : String) (hA : '\n' ∉ A.data) (L : List String)
    (hL : cleanL m.data (L.map String.data)) :
    stripReplace m k (A ++ specLines L) = A ++ specLines L := by
  apply String.ext
  show stripScan m.data k (A ++ specLines L).data = _
  rw [String.data_append]
  show stripScan m.data k (A.data ++ linesData (L.map String.data)) = _
  rw [stripScan_walk m.data k (linesData (L.map String.data)) (linesData (L.map String.data))
    (stripScan_id m.data k hmn (L.map String.data) hL) A.data hA]
  rfl

/-- One substitution pass on a body headed by a marker line. -/
theorem stripReplace_match (m : String) (k : Nat) (hmn : '\n' ∉ m.data) (hm : m ≠ "")
    (A : String) (hA : '\n' ∉ A.data) (R : String) (hR : '\n' ∉ R.data)
    (L : List String) (hL : cleanL m.data (L.map String.data)) :
    stripReplace m k (A ++ specLines ((m ++ R) :: L)) = A ++ specLines (" " :: L.drop k) := by
  apply String.ext
  show stripScan m.data k (A ++ specLines ((m ++ R) :: L)).data = _
  rw [String.data_append]
  have hform : (specLines ((m ++ R) :: L)).data
      = linesData ((m.data ++ R.data) :: L.map String.data) := by
    show linesData ((((m ++ R) :: L).map String.data)) = _
    simp [String.data_append]
  rw [hform]
  rw [stripScan_walk m.data k
    (linesData ((m.data ++ R.data) :: L.map String.data))
    ('\n' :: ' ' :: linesData ((L.map String.data).drop k))
    (stripScan_match m.data k hmn (data_ne_nil hm) R.data hR (L.map String.data) hL)
    A.data hA]
  rw [String.data_append]
  show A.data ++ '\n' :: ' ' :: linesData ((L.map String.data).drop k)
      = A.data ++ linesData ((" " :: L.drop k).map String.data)
  rw [List.map_cons, ← List.map_drop]
  rfl

-- derived cleanliness facts

theorem cleanL_of_cleanBodyLines_ebc {L : List String} (hL : cleanBodyLines L) :
    cleanL "END BREAKING CHANGE".data (L.map String.data) := by
  intro l hl
  rcases List.mem_map.mp hl with ⟨x, hx, rfl⟩
  obtain ⟨h1, h2, h3, _, _⟩ := hL x hx
  exact ⟨data_ne_nil h1, h2, h3⟩

theorem cleanL_of_cleanBodyLines_see {L : List String} (hL : cleanBodyLines L) :
    cleanL "See".data (L.map String.data) := by
  intro l hl
  rcases List.mem_map.mp hl with ⟨x, hx, rfl⟩
  obtain ⟨h1, h2, _, h4, _⟩ := hL x hx
  exact ⟨data_ne_nil h1, h2, h4⟩

theorem cleanL_of_cleanBodyLines_closes {L : List String} (hL : cleanBodyLines L) :
    cleanL "Closes".data (L.map String.data) := by
  intro l hl
  rcases List.mem_map.mp hl with ⟨x, hx, rfl⟩
  obtain ⟨h1, h2, _, _, h5⟩ := hL x hx
  exact ⟨data_ne_nil h1, h2, h5⟩

theorem cleanBodyLines_drop {L : List String} (hL : cleanBodyLines L) (k : Nat) :
    cleanBodyLines (L.drop k) :=
  fun l hl => hL l (List.drop_subset _ _ hl)

-- head-mismatch prefix facts for marker lines

theorem ebc_not_prefix_of_see (R : String) :
    "END BREAKING CHANGE".data.isPrefixOf ("See" ++ R).data = false := rfl

theorem ebc_not_prefix_of_closes (R : String) :
    "END BREAKING CHANGE".data.isPrefixOf ("Closes" ++ R).data = false := rfl

theorem see_not_prefix_of_closes (R : String) :
    "See".data.isPrefixOf ("Closes" ++ R).data = false := rfl

theorem closes_not_prefix_of_see (R : String) :
    "Closes".data.isPrefixOf ("See" ++ R).data = false := rfl

theorem see_not_prefix_of_ebc (R : String) :
    "See".data.isPrefixOf ("END BREAKING CHANGE" ++ R).data = false := rfl

theorem closes_not_prefix_of_ebc (R : String) :
    "Closes".data.isPrefixOf ("END BREAKING CHANGE" ++ R).data = false := rfl

theorem no_nl_marker_line (m R : String) (hm : '\n' ∉ m.data) (hR : '\n' ∉ R.data) :
    '\n' ∉ (m ++ R).data := by
  rw [String.data_append]
  intro h
  rcases List.mem_append.mp h with h | h
  · exact hm h
  · exact hR h

/-- `stripBody` on a body whose single trailer line uses the `Closes` marker:
the marker line and two further lines are collapsed. -/
theorem stripBody_closes (A R : String) (L : List String)
    (hA : '\n' ∉ A.data) (hR : '\n' ∉ R.data) (hL : cleanBodyLines L) :
    stripBody (A ++ specLines (("Closes" ++ R) :: L)) = A ++ specLines (" " :: L.drop 2) := by
  have hmr : '\n' ∉ ("Closes" ++ R).data := no_nl_marker_line "Closes" R (by decide) hR
  have hb0 : A ++ specLines (("Closes" ++ R) :: L) ≠ "" := specLines_ne_empty _ _ _
  have hclean1 : cleanL "END BREAKING CHANGE".data
      ((("Closes" ++ R) :: L).map String.data) := by
    intro l hl
    rcases List.mem_map.mp hl with ⟨x, hx, rfl⟩
    rcases List.mem_cons.mp hx with rfl | hx
    · refine ⟨?_, hmr, ebc_not_prefix_of_closes R⟩
      simp [String.data_append]
    · exact cleanL_of_cleanBodyLines_ebc hL _ (List.mem_map_of_mem _ hx)
  have hclean2 : cleanL "See".data ((("Closes" ++ R) :: L).map String.data) := by
    intro l hl
    rcases List.mem_map.mp hl with ⟨x, hx, rfl⟩
    rcases List.mem_cons.mp hx with rfl | hx
    · refine ⟨?_, hmr, see_not_prefix_of_closes R⟩
      simp [String.data_append]
    · exact cleanL_of_cleanBodyLines_see hL _ (List.mem_map_of_mem _ hx)
  have h1 : stripReplace "END BREAKING CHANGE" 4 (A ++ specLines (("Closes" ++ R) :: L))
      = A ++ specLines (("Closes" ++ R) :: L) :=
    stripReplace_id _ 4 (by decide) A hA _ hclean1
  have h2 : stripReplace "See" 3 (A ++ specLines (("Closes" ++ R) :: L))
      = A ++ specLines (("Closes" ++ R) :: L) :=
    stripReplace_id _ 3 (by decide) A hA _ hclean2
  have h3 : stripReplace "Closes" 2 (A ++ specLines (("Closes" ++ R) :: L))
      = A ++ specLines (" " :: L.drop 2) :=
    stripReplace_match "Closes" 2 (by decide) (by decide) A hA R hR L
      (cleanL_of_cleanBodyLines_closes hL)
  simp only [stripBody]
  rw [if_pos hb0, h1, if_pos hb0, h2, if_pos hb0, h3]

/-- `stripBody` on a body whose single trailer line uses the `See` marker:
the marker line and three further lines are collapsed. -/
theorem stripBody_see (A R : String) (L : List String)
    (hA : '\n' ∉ A.data) (hR : '\n' ∉ R.data) (hL : cleanBodyLines L) :
    stripBody (A ++ specLines (("See" ++ R) :: L)) = A ++ specLines (" " :: L.drop 3) := by
  have hmr : '\n' ∉ ("See" ++ R).data := no_nl_marker_line "See" R (by decide) hR
  have hb0 : A ++ specLines (("See" ++ R) :: L) ≠ "" := specLines_ne_empty _ _ _
  have hb2 : A ++ specLines (" " :: L.drop 3) ≠ "" := specLines_ne_empty _ _ _
  have hclean1 : cleanL "END BREAKING CHANGE".data
      ((("See" ++ R) :: L).map String.data) := by
    intro l hl
    rcases List.mem_map.mp hl with ⟨x, hx, rfl⟩
    rcases List.mem_cons.mp hx with rfl | hx
    · refine ⟨?_, hmr, ebc_not_prefix_of_see R⟩
      simp [String.data_append]
    · exact cleanL_of_cleanBodyLines_ebc hL _ (List.mem_map_of_mem _ hx)
  have hclean3 : cleanL "Closes".data ((" " :: L.drop 3).map String.data) := by
    intro l hl
    rcases List.mem_map.mp hl with ⟨x, hx, rfl⟩
    rcases List.mem_cons.mp hx with rfl | hx
    · exact ⟨by decide, by decide, by decide⟩
    · exact cleanL_of_cleanBodyLines_closes (cleanBodyLines_drop hL 3) _
        (List.mem_map_of_mem _ hx)
  have h1 : stripReplace "END BREAKING CHANGE" 4 (A ++ specLines (("See" ++ R) :: L))
      = A ++ specLines (("See" ++ R) :: L) :=
    stripReplace_id _ 4 (by decide) A hA _ hclean1
  have h2 : stripReplace "See" 3 (A ++ specLines (("See" ++ R) :: L))
      = A ++ specLines (" " :: L.drop 3) :=
    stripReplace_match "See" 3 (by decide) (by decide) A hA R hR L
      (cleanL_of_cleanBodyLines_see hL)
  have h3 : stripReplace "Closes" 2 (A ++ specLines (" " :: L.drop 3))
      = A ++ specLines (" " :: L.drop 3) :=
    stripReplace_id _ 2 (by decide) A hA _ hclean3
  simp only [stripBody]
  rw [if_pos hb0, h1, if_pos hb0, h2, if_pos hb2, h3]

/-- `stripBody` on a body whose single trailer line uses the
`END BREAKING CHANGE` marker: the marker line and four further lines are
collapsed. -/
theorem stripBody_ebc (A R : String) (L : List String)
    (hA : '\n' ∉ A.data) (hR : '\n' ∉ R.data) (hL : cleanBodyLines L) :
    stripBody (A ++ specLines (("END BREAKING CHANGE" ++ R) :: L))
      = A ++ specLines (" " :: L.drop 4) := by
  have hb0 : A ++ specLines (("END BREAKING CHANGE" ++ R) :: L) ≠ "" :=
    specLines_ne_empty _ _ _
  have hb1 : A ++ specLines (" " :: L.drop 4) ≠ "" := specLines_ne_empty _ _ _
  have hclean2 : cleanL "See".data ((" " :: L.drop 4).map String.data) := by
    intro l hl
    rcases List.mem_map.mp hl with ⟨x, hx, rfl⟩
    rcases List.mem_cons.mp hx with rfl | hx
    · exact ⟨by decide, by decide, by decide⟩
    · exact cleanL_of_cleanBodyLines_see (cleanBodyLines_drop hL 4) _
        (List.mem_map_of_mem _ hx)
  have hclean3 : cleanL "Closes".data ((" " :: L.drop 4).map String.data) := by
    intro l hl
    rcases List.mem_map.mp hl with ⟨x, hx, rfl⟩
    rcases List.mem_cons.mp hx with rfl | hx
    · exact ⟨by decide, by decide, by decide⟩
    · exact cleanL_of_cleanBodyLines_closes (cleanBodyLines_drop hL 4) _
        (List.mem_map_of_mem _ hx)
  have h1 : stripReplace "END BREAKING CHANGE" 4
      (A ++ specLines (("END BREAKING CHANGE" ++ R) :: L))
      = A ++ specLines (" " :: L.drop 4) :=
    stripReplace_match "END BREAKING CHANGE" 4 (by decide) (by decide) A hA R hR L
      (cleanL_of_cleanBodyLines_ebc hL)
  have h2 : stripReplace "See" 3 (A ++ specLines (" " :: L.drop 4))
      = A ++ specLines (" " :: L.drop 4) :=
    stripReplace_id _ 3 (by decide) A hA _ hclean2
  have h3 : stripReplace "Closes" 2 (A ++ specLines (" " :: L.drop 4))
      = A ++ specLines (" " :: L.drop 4) :=
    stripReplace_id _ 2 (by decide) A hA _ hclean3
  simp only [stripBody]
  rw [if_pos hb0, h1, if_pos hb1, h2, if_pos hb1, h3]

/-- C6 counterexample: a `Closes` trailer block consumes the marker line and
only two further lines — with five continuation lines `b`..`f` available, the
lines `d`, `e`, `f` survive, contradicting the claimed span of up to five
continuation lines (which would leave only `"x\n "`). -/
theorem trailer_strip_five_counterexample :
    stripBody ("x" ++ specLines (("Closes" ++ " a") :: ["b", "c", "d", "e", "f"]))
        = "x\n \nd\ne\nf" ∧
      "x\n \nd\ne\nf" ≠ ("x" : String) ++ "\n " := by
  have h := stripBody_closes "x" " a" ["b", "c", "d", "e", "f"]
    (by decide) (by decide) (by decide)
  exact ⟨h.trans (by decide), by decide⟩

/-- C6 (amended): for a non-empty body, the three trailer substitutions are
applied in source order — `END BREAKING CHANGE`, then `See`, then `Closes` —
and a stripped block spans the marker line plus up to 4 (`END BREAKING
CHANGE`), 3 (`See`) or 2 (`Closes`) further lines, not up to 5; each block is
collapsed to a newline followed by a single space. -/
theorem trailer_strip_spans :
    (∀ (A R : String) (L : List String), '\n' ∉ A.data → '\n' ∉ R.data →
      cleanBodyLines L →
      stripBody (A ++ specLines (("END BREAKING CHANGE" ++ R) :: L))
        = A ++ specLines (" " :: L.drop 4)) ∧
    (∀ (A R : String) (L : List String), '\n' ∉ A.data → '\n' ∉ R.data →
      cleanBodyLines L →
      stripBody (A ++ specLines (("See" ++ R) :: L))
        = A ++ specLines (" " :: L.drop 3)) ∧
    (∀ (A R : String) (L : List String), '\n' ∉ A.data → '\n' ∉ R.data →
      cleanBodyLines L →
      stripBody (A ++ specLines (("Closes" ++ R) :: L))
        = A ++ specLines (" " :: L.drop 2)) :=
  ⟨stripBody_ebc, stripBody_see, stripBody_closes⟩

/-- C6 witness: concrete bodies with five continuation lines, one per marker;
4, 3 and 2 continuation lines respectively are consumed. -/
theorem trailer_strip_spans_witness :
    stripBody ("x" ++ specLines (("END BREAKING CHANGE" ++ " q") :: ["b", "c", "d", "e", "f"]))
        = "x\n \nf" ∧
      stripBody ("x" ++ specLines (("See" ++ " also") :: ["b", "c", "d", "e", "f"]))
        = "x\n \ne\nf" ∧
      stripBody ("x" ++ specLines (("Closes" ++ " #1") :: ["b", "c", "d", "e", "f"]))
        = "x\n \nd\ne\nf" :=
  ⟨(trailer_strip_spans.1 "x" " q" ["b", "c", "d", "e", "f"]
      (by decide) (by decide) (by decide)).trans (by decide),
    (trailer_strip_spans.2.1 "x" " also" ["b", "c", "d", "e", "f"]
      (by decide) (by decide) (by decide)).trans (by decide),
    (trailer_strip_spans.2.2 "x" " #1" ["b", "c", "d", "e", "f"]
      (by decide) (by decide) (by decide)).trans (by decide)⟩
